import Mathlib

/-!
Publish/subscribe broker (`src/main.go`).

A shallow embedding of the subscription and delivery engine of `src/main.go`:
`Mailbox`, `User`, `Topic` and `SubscriptionService`, with the entity methods
and the bodies of the four request handlers.

Modelling decisions.

* Go pointers `*Topic` and `*User` are addresses in an explicit heap.  The heap
  is a pair of lists and an address is an index; allocation (`&Topic{...}`,
  `&User{...}`) appends to the list, so the fresh address is the old length.
* A Go `map` is an association list read by first match; assignment replaces
  the first match or appends, `delete` removes every match.  A `map[K]struct{}`
  is a list of keys.
* Every `*Mailbox` is allocated by `Topic.Subscribe` and stored in exactly one
  slot of one `Mailboxes` map, so the map holds the mailbox by value and the
  methods with a pointer receiver write the updated mailbox back to its slot.
* A run-time panic (nil dereference, index out of range) is the result `none`.
* `sync.Mutex` is not modelled: the development is about sequential runs.
-/

namespace PubSub

/-- A Go `[]byte`: `none` is the nil slice, `some bs` a non-nil slice. -/
abbrev Bytes := Option (List (Fin 256))

/-- Address of a `Topic` object. -/
abbrev TopicPtr := Nat

/-- Address of a `User` object. -/
abbrev UserPtr := Nat

/-! ## Go maps as association lists -/

/-- Read `m[k]`: the value and `ok = true` (`some v`), or `ok = false` (`none`). -/
def mapGet {K V : Type} [DecidableEq K] : List (K × V) → K → Option V
  | [], _ => none
  | (k', v) :: rest, k => if k' = k then some v else mapGet rest k

/-- Assignment `m[k] = v`. -/
def mapSet {K V : Type} [DecidableEq K] : List (K × V) → K → V → List (K × V)
  | [], k, v => [(k, v)]
  | (k', v') :: rest, k, v =>
    if k' = k then (k, v) :: rest else (k', v') :: mapSet rest k v

/-- Builtin `delete(m, k)`. -/
def mapDelete {K V : Type} [DecidableEq K] (m : List (K × V)) (k : K) : List (K × V) :=
  m.filter (fun p => decide (p.1 ≠ k))

/-- Assignment `s[k] = struct{}{}` on a `map[K]struct{}`. -/
def setAdd {K : Type} [DecidableEq K] (s : List K) (k : K) : List K :=
  if k ∈ s then s else s ++ [k]

/-- Builtin `delete(s, k)` on a `map[K]struct{}`. -/
def setDelete {K : Type} [DecidableEq K] (s : List K) (k : K) : List K :=
  s.filter (fun x => decide (x ≠ k))

/-! ## Mailbox -/

/-- Mailbox is a simple queue (`type Mailbox struct { buf [][]byte }`). -/
structure Mailbox where
  buf : List Bytes
deriving DecidableEq, Repr

/-- Send appends message to mailbox: `m.buf = append(m.buf, msg)`. -/
def Mailbox.Send (m : Mailbox) (msg : Bytes) : Mailbox :=
  { buf := m.buf ++ [msg] }

/-- Pop returns the first message and the updated mailbox, nil on an empty
mailbox.  `m.buf[0]` is a checked index: out of range is a panic (`none`). -/
def Mailbox.Pop (m : Mailbox) : Option (Bytes × Mailbox) :=
  if m.buf.length = 0 then
    some (none, m)
  else
    match m.buf[0]? with
    | none => none
    | some msg => some (msg, { buf := m.buf.drop 1 })

/-! ## User and Topic -/

/-- User tracks a mailbox for each subscription. -/
structure User where
  Name : String
  Mailboxes : List (TopicPtr × Mailbox)
deriving DecidableEq, Repr

/-- Topic tracks all users subscribed to it. -/
structure Topic where
  Name : String
  Subscribers : List UserPtr
deriving DecidableEq, Repr

/-- The heap: the allocated `Topic` and `User` objects, by address. -/
structure Heap where
  topicObjs : List Topic
  userObjs : List User
deriving DecidableEq, Repr

/-- Store `u` at the user address `user`. -/
def Heap.putUser (h : Heap) (user : UserPtr) (u : User) : Heap :=
  { h with userObjs := h.userObjs.set user u }

/-- Store `t` at the topic address `topic`. -/
def Heap.putTopic (h : Heap) (topic : TopicPtr) (t : Topic) : Heap :=
  { h with topicObjs := h.topicObjs.set topic t }

/-- NextMessage returns the next message if subscribed, nil on empty.  The
result is `((msg, subscribed), heap)`; `none` is a panic. -/
def User.NextMessage (h : Heap) (user : UserPtr) (topic : TopicPtr) :
    Option ((Bytes × Bool) × Heap) :=
  match h.userObjs[user]? with
  | none => none
  | some u =>
    match mapGet u.Mailboxes topic with
    | none => some ((none, false), h)
    | some mailbox =>
      match mailbox.Pop with
      | none => none
      | some (msg, mailbox') =>
        some ((msg, true),
          h.putUser user { u with Mailboxes := mapSet u.Mailboxes topic mailbox' })

/-- Subscribe adds user to topic subscriptions. -/
def Topic.Subscribe (h : Heap) (topic : TopicPtr) (user : UserPtr) : Option Heap :=
  match h.topicObjs[topic]? with
  | none => none
  | some t =>
    if user ∈ t.Subscribers then
      some h
    else
      let h1 := h.putTopic topic { t with Subscribers := setAdd t.Subscribers user }
      match h1.userObjs[user]? with
      | none => none
      | some u =>
        some (h1.putUser user
          { u with Mailboxes := mapSet u.Mailboxes topic { buf := [] } })

/-- Unsubscribe removes user from subscriptions, returns false if user is not
subscribed. -/
def Topic.Unsubscribe (h : Heap) (topic : TopicPtr) (user : UserPtr) :
    Option (Bool × Heap) :=
  match h.topicObjs[topic]? with
  | none => none
  | some t =>
    if user ∈ t.Subscribers then
      let h1 := h.putTopic topic { t with Subscribers := setDelete t.Subscribers user }
      match h1.userObjs[user]? with
      | none => none
      | some u =>
        some (true, h1.putUser user { u with Mailboxes := mapDelete u.Mailboxes topic })
    else
      some (false, h)

/-- One iteration of the loop of `Topic.Publish`:
`user.Mailboxes[topic].Send(message)`.  A missing entry yields a nil
`*Mailbox`, and `Send` on it panics. -/
def publishStep (topic : TopicPtr) (message : Bytes) (h : Heap) (user : UserPtr) :
    Option Heap :=
  match h.userObjs[user]? with
  | none => none
  | some u =>
    match mapGet u.Mailboxes topic with
    | none => none
    | some mailbox =>
      some (h.putUser user
        { u with Mailboxes := mapSet u.Mailboxes topic (mailbox.Send message) })

/-- The loop `for user := range topic.Subscribers`, visiting the subscribers in
the order `order`. -/
def publishLoop (topic : TopicPtr) (message : Bytes) : Heap → List UserPtr → Option Heap
  | h, [] => some h
  | h, user :: rest =>
    match publishStep topic message h user with
    | none => none
    | some h1 => publishLoop topic message h1 rest

/-- Publish distributes message to all subscribed mailboxes.  The subscribers
are visited in the order in which the set lists them. -/
def Topic.Publish (h : Heap) (topic : TopicPtr) (message : Bytes) : Option Heap :=
  match h.topicObjs[topic]? with
  | none => none
  | some t => publishLoop topic message h t.Subscribers

/-! ## SubscriptionService -/

/-- SubscriptionService tracks all created topics/users: the two directories
`topics map[string]*Topic` and `users map[string]*User`, and the heap they
point into. -/
structure SubscriptionService where
  heap : Heap
  topics : List (String × TopicPtr)
  users : List (String × UserPtr)
deriving DecidableEq, Repr

/-- The service built by `main`: both directories empty, nothing allocated. -/
def SubscriptionService.empty : SubscriptionService :=
  { heap := { topicObjs := [], userObjs := [] }, topics := [], users := [] }

/-- Get-or-create of a topic by name. -/
def SubscriptionService.getTopic (svc : SubscriptionService) (name : String) :
    TopicPtr × SubscriptionService :=
  match mapGet svc.topics name with
  | some topic => (topic, svc)
  | none =>
    let topic := svc.heap.topicObjs.length
    (topic,
      { svc with
        heap := { svc.heap with
          topicObjs := svc.heap.topicObjs ++ [{ Name := name, Subscribers := [] }] }
        topics := mapSet svc.topics name topic })

/-- Get-or-create of a user by name. -/
def SubscriptionService.getUser (svc : SubscriptionService) (name : String) :
    UserPtr × SubscriptionService :=
  match mapGet svc.users name with
  | some user => (user, svc)
  | none =>
    let user := svc.heap.userObjs.length
    (user,
      { svc with
        heap := { svc.heap with
          userObjs := svc.heap.userObjs ++ [{ Name := name, Mailboxes := [] }] }
        users := mapSet svc.users name user })

/-- Body of `SubscribeUserHandler` (the registry operation Subscribe). -/
def SubscriptionService.Subscribe (svc : SubscriptionService)
    (topicname username : String) : Option SubscriptionService :=
  let r1 := svc.getTopic topicname
  let r2 := r1.2.getUser username
  match Topic.Subscribe r2.2.heap r1.1 r2.1 with
  | none => none
  | some h => some { r2.2 with heap := h }

/-- Body of `UnsubscribeUserHandler` up to the status code (the registry
operation Unsubscribe): the result of `topic.Unsubscribe(user)` and the state. -/
def SubscriptionService.Unsubscribe (svc : SubscriptionService)
    (topicname username : String) : Option (Bool × SubscriptionService) :=
  let r1 := svc.getTopic topicname
  let r2 := r1.2.getUser username
  match Topic.Unsubscribe r2.2.heap r1.1 r2.1 with
  | none => none
  | some (ok, h) => some (ok, { r2.2 with heap := h })

/-- Body of `PublishHandler` after the request body has been read (the registry
operation Publish). -/
def SubscriptionService.Publish (svc : SubscriptionService)
    (topicname : String) (message : Bytes) : Option SubscriptionService :=
  let r1 := svc.getTopic topicname
  match Topic.Publish r1.2.heap r1.1 message with
  | none => none
  | some h => some { r1.2 with heap := h }

/-- Body of `NextMessageHandler` up to the encoding of the answer (the registry
operation PollNext): `((message, ok), state)`. -/
def SubscriptionService.PollNext (svc : SubscriptionService)
    (topicname username : String) : Option ((Bytes × Bool) × SubscriptionService) :=
  let r1 := svc.getTopic topicname
  let r2 := r1.2.getUser username
  match User.NextMessage r2.2.heap r2.1 r1.1 with
  | none => none
  | some (res, h) => some (res, { r2.2 with heap := h })

/-- What a handler did with its `http.ResponseWriter`: the status passed to
`WriteHeader`, if it was called, and the bytes passed to `Write`, if it was
called.  `Write` is taken to succeed. -/
structure Response where
  status : Option Nat
  written : Option Bytes
deriving DecidableEq, Repr

/-- Handler registered for `POST /{topic}/{username}`; the two names are the
route variables `topic` and `username`. -/
def SubscriptionService.SubscribeUserHandler (svc : SubscriptionService)
    (topicname username : String) : Option (Response × SubscriptionService) :=
  match svc.Subscribe topicname username with
  | none => none
  | some svc1 => some ({ status := none, written := none }, svc1)

/-- Handler registered for `DELETE /{topic}/{username}`. -/
def SubscriptionService.UnsubscribeUserHandler (svc : SubscriptionService)
    (topicname username : String) : Option (Response × SubscriptionService) :=
  match svc.Unsubscribe topicname username with
  | none => none
  | some (ok, svc1) =>
    if !ok then some ({ status := some 404, written := none }, svc1)
    else some ({ status := none, written := none }, svc1)

/-- Handler registered for `POST /{topic}`; `message` is the request body read
by `ioutil.ReadAll`, a non-nil slice whenever the read succeeds. -/
def SubscriptionService.PublishHandler (svc : SubscriptionService)
    (topicname : String) (message : Bytes) : Option (Response × SubscriptionService) :=
  match svc.Publish topicname message with
  | none => none
  | some svc1 => some ({ status := none, written := none }, svc1)

/-- Handler registered for `GET /{topic}/{username}`. -/
def SubscriptionService.NextMessageHandler (svc : SubscriptionService)
    (topicname username : String) : Option (Response × SubscriptionService) :=
  match svc.PollNext topicname username with
  | none => none
  | some ((message, ok), svc1) =>
    if !ok then some ({ status := some 404, written := none }, svc1)
    else if message = none then some ({ status := some 204, written := none }, svc1)
    else some ({ status := none, written := some message }, svc1)

/-! ## Runs of the service -/

/-- A request to the service. -/
inductive Op where
  | subscribe (topicname username : String)
  | unsubscribe (topicname username : String)
  | publish (topicname : String) (message : Bytes)
  | pollNext (topicname username : String)
deriving DecidableEq, Repr

/-- The state after serving one request; `none` is a panic. -/
def step (svc : SubscriptionService) : Op → Option SubscriptionService
  | .subscribe t u => svc.Subscribe t u
  | .unsubscribe t u => (svc.Unsubscribe t u).map Prod.snd
  | .publish t m => svc.Publish t m
  | .pollNext t u => (svc.PollNext t u).map Prod.snd

/-- The state after serving the requests of a list in order. -/
def run : SubscriptionService → List Op → Option SubscriptionService
  | svc, [] => some svc
  | svc, op :: ops =>
    match step svc op with
    | none => none
    | some svc1 => run svc1 ops

/-- States the service can be in: the results of runs from the empty service. -/
def Reachable (svc : SubscriptionService) : Prop :=
  ∃ ops, run SubscriptionService.empty ops = some svc

/-- Whether a request is one that the handlers can issue.  The message of a
Publish is the slice that `ioutil.ReadAll` returned for the request body: it
is non-nil whenever the read succeeds (an empty body gives the empty non-nil
slice), and when the read fails `PublishHandler` panics before publishing. -/
def Op.fromRequest : Op → Bool
  | .publish _ m => m.isSome
  | _ => true

/-- States the program can be in: the results of runs, from the empty service,
of requests that the handlers can issue. -/
def ProgramReachable (svc : SubscriptionService) : Prop :=
  ∃ ops, ops.all Op.fromRequest = true ∧ run SubscriptionService.empty ops = some svc

/-! ## Observations and invariants -/

/-- The subscriber set stored at a topic address (empty when nothing is
allocated there). -/
def Heap.subs (h : Heap) (t : TopicPtr) : List UserPtr :=
  match h.topicObjs[t]? with
  | some x => x.Subscribers
  | none => []

/-- The mailbox that the user at address `u` holds for the topic address `t`. -/
def Heap.mbox (h : Heap) (u : UserPtr) (t : TopicPtr) : Option Mailbox :=
  match h.userObjs[u]? with
  | some x => mapGet x.Mailboxes t
  | none => none

/-- The name stored at a topic address. -/
def Heap.topicName (h : Heap) (t : TopicPtr) : Option String :=
  (h.topicObjs[t]?).map Topic.Name

/-- The name stored at a user address. -/
def Heap.userName (h : Heap) (u : UserPtr) : Option String :=
  (h.userObjs[u]?).map User.Name

/-- Bidirectional consistency over addresses: `u` is in the subscriber set at
`t` exactly when the user at `u` has a mailbox for `t`.  Read at an address
where nothing is allocated, it says that no subscriber set and no mailbox map
mentions that address. -/
def Heap.Consistent (h : Heap) : Prop :=
  ∀ t u, u ∈ h.subs t ↔ (h.mbox u t).isSome = true

/-- Heap invariant: bidirectional consistency, and every subscriber set lists
each of its members once. -/
def Heap.WF (h : Heap) : Prop :=
  h.Consistent ∧ ∀ t, (h.subs t).Nodup

/-- Service invariant: the heap invariant, and every directory entry points to
an allocated object carrying the entry's name. -/
def SubscriptionService.WF (svc : SubscriptionService) : Prop :=
  svc.heap.WF ∧
  (∀ n p, mapGet svc.topics n = some p → svc.heap.topicName p = some n) ∧
  (∀ n p, mapGet svc.users n = some p → svc.heap.userName p = some n)

/-- The messages buffered for the pair of names `(T, U)`: `none` when `U` has
no mailbox for `T` (one of the names unknown, or not subscribed). -/
def SubscriptionService.view (svc : SubscriptionService) (T U : String) :
    Option (List Bytes) :=
  match mapGet svc.topics T, mapGet svc.users U with
  | some t, some u => (svc.heap.mbox u t).map Mailbox.buf
  | _, _ => none

/-- The head of a buffer as `Mailbox.Pop` reports it: nil on an empty buffer. -/
def headMsg : List Bytes → Bytes
  | [] => none
  | msg :: _ => msg

/-- The answers of `n` successive PollNext requests for `(T, U)`, oldest first,
and the state after the last one. -/
def pollN (svc : SubscriptionService) (T U : String) :
    Nat → Option (List (Bytes × Bool) × SubscriptionService)
  | 0 => some ([], svc)
  | n + 1 =>
    match svc.PollNext T U with
    | none => none
    | some (r, svc1) =>
      match pollN svc1 T U n with
      | none => none
      | some (rs, svc2) => some (r :: rs, svc2)

/-- Whether the user named `U` is in the subscriber set of the topic named `T`. -/
def SubscriptionService.subscribed (svc : SubscriptionService) (T U : String) : Bool :=
  match mapGet svc.topics T, mapGet svc.users U with
  | some t, some u => decide (u ∈ svc.heap.subs t)
  | _, _ => false

/-- The service after the single request Subscribe("t", "u"). -/
def svcTU : SubscriptionService :=
  { heap := { topicObjs := [{ Name := "t", Subscribers := [0] }],
              userObjs := [{ Name := "u", Mailboxes := [(0, { buf := [] })] }] },
    topics := [("t", 0)],
    users := [("u", 0)] }

/-- The service after Subscribe("t", "u") and Publish("t", "a"). -/
def svcTUa : SubscriptionService :=
  { heap := { topicObjs := [{ Name := "t", Subscribers := [0] }],
              userObjs := [{ Name := "u", Mailboxes := [(0, { buf := [some [97]] })] }] },
    topics := [("t", 0)],
    users := [("u", 0)] }

/-- The mailbox after `Send` of each message of a list, in order. -/
def sendAll (m : Mailbox) : List Bytes → Mailbox
  | [] => m
  | msg :: rest => sendAll (m.Send msg) rest

/-- The results of `n` successive `Pop` calls, oldest first, and the mailbox
after the last one. -/
def popN : Mailbox → Nat → Option (List Bytes × Mailbox)
  | m, 0 => some ([], m)
  | m, n + 1 =>
    match m.Pop with
    | none => none
    | some (msg, m1) =>
      match popN m1 n with
      | none => none
      | some (msgs, m2) => some (msg :: msgs, m2)

/-- The service after Subscribe("t", "u") and Subscribe("t", "v"). -/
def svcT2 : SubscriptionService :=
  { heap := { topicObjs := [{ Name := "t", Subscribers := [0, 1] }],
              userObjs := [{ Name := "u", Mailboxes := [(0, { buf := [] })] },
                           { Name := "v", Mailboxes := [(0, { buf := [] })] }] },
    topics := [("t", 0)],
    users := [("u", 0), ("v", 1)] }

/-- The delivery record of one pair `(T, U)` along a run: the messages
published to `T` and the messages returned by PollNext(T,U), both counted from
the most recent Subscribe(T,U) that took effect. -/
structure Ledger where
  published : List Bytes
  delivered : List Bytes
deriving DecidableEq, Repr

/-- The record of `(T, U)` after one request served in state `s`.  A
Subscribe(T,U) made while `U` is not subscribed takes effect and starts a new
record; a Publish to `T` adds its message to `published`; a PollNext(T,U) that
answers `subscribed = true` while a message is buffered adds the message it
returned to `delivered` (on an empty mailbox it returns the empty marker, not
a message). -/
def ledgerStep (T U : String) (s : SubscriptionService) (l : Ledger) : Op → Ledger
  | .subscribe T1 U1 =>
    if T1 = T ∧ U1 = U ∧ s.subscribed T U = false then
      { published := [], delivered := [] }
    else l
  | .unsubscribe _ _ => l
  | .publish T1 m =>
    if T1 = T then { l with published := l.published ++ [m] } else l
  | .pollNext T1 U1 =>
    if T1 = T ∧ U1 = U then
      match s.PollNext T U with
      | some ((msg, true), _) =>
        if (s.view T U).getD [] = [] then l
        else { l with delivered := l.delivered ++ [msg] }
      | _ => l
    else l

/-- Run a list of requests, keeping the delivery record of `(T, U)`. -/
def runLedger (T U : String) :
    SubscriptionService → Ledger → List Op → Option (SubscriptionService × Ledger)
  | s, l, [] => some (s, l)
  | s, l, op :: ops =>
    match step s op with
    | none => none
    | some s1 => runLedger T U s1 (ledgerStep T U s l op) ops

/-! ## Lemmas on maps and sets -/

theorem mapGet_mapSet_same {K V : Type} [DecidableEq K] (m : List (K × V)) (k : K) (v : V) :
    mapGet (mapSet m k v) k = some v := by
  induction m with
  | nil => simp [mapSet, mapGet]
  | cons p rest ih =>
    obtain ⟨k', v'⟩ := p
    by_cases hk : k' = k
    · simp [mapSet, mapGet, hk]
    · simp [mapSet, mapGet, hk, ih]

theorem mapGet_mapSet_ne {K V : Type} [DecidableEq K] (m : List (K × V)) (k k1 : K) (v : V)
    (hne : k1 ≠ k) : mapGet (mapSet m k v) k1 = mapGet m k1 := by
  induction m with
  | nil => simp [mapSet, mapGet, Ne.symm hne]
  | cons p rest ih =>
    obtain ⟨k', v'⟩ := p
    by_cases hk : k' = k
    · subst hk
      simp [mapSet, mapGet, Ne.symm hne]
    · by_cases hk1 : k' = k1
      · subst hk1
        simp [mapSet, mapGet, hk]
      · simp [mapSet, mapGet, hk, hk1, ih]

theorem mapSet_of_mapGet {K V : Type} [DecidableEq K] (m : List (K × V)) (k : K) (v : V)
    (hget : mapGet m k = some v) : mapSet m k v = m := by
  induction m with
  | nil => simp [mapGet] at hget
  | cons p rest ih =>
    obtain ⟨k', v'⟩ := p
    by_cases hk : k' = k
    · simp [mapGet, hk] at hget
      simp [mapSet, hk, hget]
    · simp [mapGet, hk] at hget
      simp [mapSet, hk, ih hget]

theorem mapGet_mapDelete_same {K V : Type} [DecidableEq K] (m : List (K × V)) (k : K) :
    mapGet (mapDelete m k) k = none := by
  induction m with
  | nil => simp [mapDelete, mapGet]
  | cons p rest ih =>
    obtain ⟨k', v'⟩ := p
    by_cases hk : k' = k
    · simpa [mapDelete, List.filter_cons, hk] using ih
    · simpa [mapDelete, List.filter_cons, hk, mapGet] using ih

theorem mapGet_mapDelete_ne {K V : Type} [DecidableEq K] (m : List (K × V)) (k k1 : K)
    (hne : k1 ≠ k) : mapGet (mapDelete m k) k1 = mapGet m k1 := by
  induction m with
  | nil => simp [mapDelete, mapGet]
  | cons p rest ih =>
    obtain ⟨k', v'⟩ := p
    by_cases hk : k' = k
    · subst hk
      simpa [mapDelete, List.filter_cons, mapGet, Ne.symm hne] using ih
    · by_cases hk1 : k' = k1
      · subst hk1
        simp [mapDelete, List.filter_cons, hk, mapGet]
      · simpa [mapDelete, List.filter_cons, hk, mapGet, hk1] using ih

theorem mem_setAdd {K : Type} [DecidableEq K] (s : List K) (k x : K) :
    x ∈ setAdd s k ↔ x ∈ s ∨ x = k := by
  unfold setAdd
  split
  · constructor
    · intro h; exact Or.inl h
    · rintro (h | h)
      · exact h
      · subst h; assumption
  · simp

theorem nodup_setAdd {K : Type} [DecidableEq K] (s : List K) (k : K) (hs : s.Nodup) :
    (setAdd s k).Nodup := by
  unfold setAdd
  split
  · exact hs
  · rename_i hk
    rw [List.nodup_append]
    refine ⟨hs, List.nodup_singleton k, ?_⟩
    intro a ha hb
    simp at hb
    subst hb
    exact hk ha

theorem mem_setDelete {K : Type} [DecidableEq K] (s : List K) (k x : K) :
    x ∈ setDelete s k ↔ x ∈ s ∧ x ≠ k := by
  simp [setDelete, List.mem_filter]

theorem nodup_setDelete {K : Type} [DecidableEq K] (s : List K) (k : K) (hs : s.Nodup) :
    (setDelete s k).Nodup :=
  List.Nodup.filter _ hs

/-! ## Lemmas on the heap -/

theorem topicObjs_of_name {h : Heap} {t : TopicPtr} {n : String}
    (hn : h.topicName t = some n) : ∃ x, h.topicObjs[t]? = some x ∧ x.Name = n := by
  unfold Heap.topicName at hn
  cases hx : h.topicObjs[t]? with
  | none => simp [hx] at hn
  | some x => exact ⟨x, rfl, by simpa [hx] using hn⟩

theorem userObjs_of_name {h : Heap} {u : UserPtr} {n : String}
    (hn : h.userName u = some n) : ∃ x, h.userObjs[u]? = some x ∧ x.Name = n := by
  unfold Heap.userName at hn
  cases hx : h.userObjs[u]? with
  | none => simp [hx] at hn
  | some x => exact ⟨x, rfl, by simpa [hx] using hn⟩

theorem subs_putUser (h : Heap) (u : UserPtr) (x : User) (t : TopicPtr) :
    (h.putUser u x).subs t = h.subs t := rfl

theorem topicName_putUser (h : Heap) (u : UserPtr) (x : User) (t : TopicPtr) :
    (h.putUser u x).topicName t = h.topicName t := rfl

theorem mbox_putTopic (h : Heap) (t : TopicPtr) (x : Topic) (u : UserPtr) (t1 : TopicPtr) :
    (h.putTopic t x).mbox u t1 = h.mbox u t1 := rfl

theorem userName_putTopic (h : Heap) (t : TopicPtr) (x : Topic) (u : UserPtr) :
    (h.putTopic t x).userName u = h.userName u := rfl

theorem userObjs_putTopic (h : Heap) (t : TopicPtr) (x : Topic) :
    (h.putTopic t x).userObjs = h.userObjs := rfl

theorem mbox_putUser (h : Heap) (u : UserPtr) (x y : User) (hy : h.userObjs[u]? = some y)
    (u1 : UserPtr) (t : TopicPtr) :
    (h.putUser u x).mbox u1 t = if u1 = u then mapGet x.Mailboxes t else h.mbox u1 t := by
  have hlt : u < h.userObjs.length := by
    by_contra hge
    rw [List.getElem?_eq_none (Nat.le_of_not_lt hge)] at hy
    cases hy
  unfold Heap.mbox Heap.putUser
  by_cases hu : u1 = u
  · subst hu
    simp [List.getElem?_set, hlt]
  · have hu2 : ¬ u = u1 := fun e => hu e.symm
    simp [List.getElem?_set, hu, hu2]

theorem userName_putUser (h : Heap) (u : UserPtr) (x y : User) (hy : h.userObjs[u]? = some y)
    (hname : x.Name = y.Name) (u1 : UserPtr) :
    (h.putUser u x).userName u1 = h.userName u1 := by
  have hlt : u < h.userObjs.length := by
    by_contra hge
    rw [List.getElem?_eq_none (Nat.le_of_not_lt hge)] at hy
    cases hy
  unfold Heap.userName Heap.putUser
  by_cases hu : u1 = u
  · subst hu
    simp [List.getElem?_set, hlt, hy, hname]
  · have hu2 : ¬ u = u1 := fun e => hu e.symm
    simp [List.getElem?_set, hu2]

theorem subs_putTopic (h : Heap) (t : TopicPtr) (x y : Topic) (hy : h.topicObjs[t]? = some y)
    (t1 : TopicPtr) :
    (h.putTopic t x).subs t1 = if t1 = t then x.Subscribers else h.subs t1 := by
  have hlt : t < h.topicObjs.length := by
    by_contra hge
    rw [List.getElem?_eq_none (Nat.le_of_not_lt hge)] at hy
    cases hy
  unfold Heap.subs Heap.putTopic
  by_cases ht : t1 = t
  · subst ht
    simp [List.getElem?_set, hlt]
  · have ht2 : ¬ t = t1 := fun e => ht e.symm
    simp [List.getElem?_set, ht, ht2]

theorem topicName_putTopic (h : Heap) (t : TopicPtr) (x y : Topic)
    (hy : h.topicObjs[t]? = some y) (hname : x.Name = y.Name) (t1 : TopicPtr) :
    (h.putTopic t x).topicName t1 = h.topicName t1 := by
  have hlt : t < h.topicObjs.length := by
    by_contra hge
    rw [List.getElem?_eq_none (Nat.le_of_not_lt hge)] at hy
    cases hy
  unfold Heap.topicName Heap.putTopic
  by_cases ht : t1 = t
  · subst ht
    simp [List.getElem?_set, hlt, hy, hname]
  · have ht2 : ¬ t = t1 := fun e => ht e.symm
    simp [List.getElem?_set, ht2]

theorem subs_of_obj {h : Heap} {t : TopicPtr} {x : Topic} (hx : h.topicObjs[t]? = some x) :
    h.subs t = x.Subscribers := by
  simp [Heap.subs, hx]

theorem mbox_of_obj {h : Heap} {u : UserPtr} {x : User} (hx : h.userObjs[u]? = some x)
    (t : TopicPtr) : h.mbox u t = mapGet x.Mailboxes t := by
  simp [Heap.mbox, hx]

theorem userObjs_of_mbox {h : Heap} {u : UserPtr} {t : TopicPtr}
    (hm : (h.mbox u t).isSome = true) : ∃ x, h.userObjs[u]? = some x := by
  unfold Heap.mbox at hm
  cases hx : h.userObjs[u]? with
  | none => simp [hx] at hm
  | some x => exact ⟨x, rfl⟩

theorem topicObjs_of_subs {h : Heap} {u : UserPtr} {t : TopicPtr}
    (hm : u ∈ h.subs t) : ∃ x, h.topicObjs[t]? = some x := by
  unfold Heap.subs at hm
  cases hx : h.topicObjs[t]? with
  | none => simp [hx] at hm
  | some x => exact ⟨x, rfl⟩

/-! ## Effect of the entity methods -/

theorem pop_eq (m : Mailbox) : m.Pop = some (headMsg m.buf, { buf := m.buf.drop 1 }) := by
  obtain ⟨buf⟩ := m
  cases buf with
  | nil => simp [Mailbox.Pop, headMsg]
  | cons a rest => simp [Mailbox.Pop, headMsg]

theorem subscribe_effect (h : Heap) (t : TopicPtr) (u : UserPtr) (x : Topic) (y : User)
    (hx : h.topicObjs[t]? = some x) (hy : h.userObjs[u]? = some y) :
    ∃ h', Topic.Subscribe h t u = some h' ∧
      (∀ t1, h'.topicName t1 = h.topicName t1) ∧
      (∀ u1, h'.userName u1 = h.userName u1) ∧
      (∀ t1, h'.subs t1 = if t1 = t then setAdd (h.subs t) u else h.subs t1) ∧
      (∀ u1 t1, h'.mbox u1 t1 =
        if u1 = u ∧ t1 = t ∧ u ∉ h.subs t then some { buf := [] } else h.mbox u1 t1) := by
  have hsubs : h.subs t = x.Subscribers := subs_of_obj hx
  by_cases hmem : u ∈ x.Subscribers
  · refine ⟨h, by simp [Topic.Subscribe, hx, hmem], fun _ => rfl, fun _ => rfl, ?_, ?_⟩
    · intro t1
      by_cases ht : t1 = t
      · subst ht
        simp [hsubs, setAdd, hmem]
      · simp [ht]
    · intro u1 t1
      simp [hsubs, hmem]
  · have hy1 : (h.putTopic t { x with Subscribers := setAdd x.Subscribers u }).userObjs[u]?
        = some y := hy
    refine ⟨(h.putTopic t { x with Subscribers := setAdd x.Subscribers u }).putUser u
        { y with Mailboxes := mapSet y.Mailboxes t { buf := [] } }, ?_, ?_, ?_, ?_, ?_⟩
    · simp [Topic.Subscribe, hx, hmem, hy1]
    · intro t1
      rw [topicName_putUser]
      exact topicName_putTopic h t _ x hx (by rfl) t1
    · intro u1
      exact (userName_putUser _ u _ y hy1 (by rfl) u1).trans rfl
    · intro t1
      rw [subs_putUser, subs_putTopic h t _ x hx, hsubs]
    · intro u1 t1
      rw [mbox_putUser _ u _ y hy1, mbox_putTopic, hsubs]
      by_cases hu : u1 = u
      · subst hu
        by_cases ht : t1 = t
        · subst ht
          simp [hmem, mapGet_mapSet_same]
        · simp [ht, mapGet_mapSet_ne _ _ _ _ ht, mbox_of_obj hy]
      · simp [hu]

theorem unsubscribe_effect (h : Heap) (t : TopicPtr) (u : UserPtr) (x : Topic) (y : User)
    (hx : h.topicObjs[t]? = some x) (hy : h.userObjs[u]? = some y) :
    ∃ h', Topic.Unsubscribe h t u = some (decide (u ∈ h.subs t), h') ∧
      (u ∉ h.subs t → h' = h) ∧
      (∀ t1, h'.topicName t1 = h.topicName t1) ∧
      (∀ u1, h'.userName u1 = h.userName u1) ∧
      (∀ t1, h'.subs t1 = if t1 = t then setDelete (h.subs t) u else h.subs t1) ∧
      (∀ u1 t1, h'.mbox u1 t1 =
        if u1 = u ∧ t1 = t ∧ u ∈ h.subs t then none else h.mbox u1 t1) := by
  have hsubs : h.subs t = x.Subscribers := subs_of_obj hx
  by_cases hmem : u ∈ x.Subscribers
  · have hy1 : (h.putTopic t { x with Subscribers := setDelete x.Subscribers u }).userObjs[u]?
        = some y := hy
    refine ⟨(h.putTopic t { x with Subscribers := setDelete x.Subscribers u }).putUser u
        { y with Mailboxes := mapDelete y.Mailboxes t }, ?_, ?_, ?_, ?_, ?_, ?_⟩
    · simp [Topic.Unsubscribe, hx, hmem, hy1, hsubs]
    · intro hn
      exact absurd (hsubs ▸ hmem) hn
    · intro t1
      rw [topicName_putUser]
      exact topicName_putTopic h t _ x hx (by rfl) t1
    · intro u1
      exact (userName_putUser _ u _ y hy1 (by rfl) u1).trans rfl
    · intro t1
      rw [subs_putUser, subs_putTopic h t _ x hx, hsubs]
    · intro u1 t1
      rw [mbox_putUser _ u _ y hy1, mbox_putTopic, hsubs]
      by_cases hu : u1 = u
      · subst hu
        by_cases ht : t1 = t
        · subst ht
          simp [hmem, mapGet_mapDelete_same]
        · simp [ht, mapGet_mapDelete_ne _ _ _ ht, mbox_of_obj hy]
      · simp [hu]
  · refine ⟨h, by simp [Topic.Unsubscribe, hx, hmem, hsubs], fun _ => rfl, fun _ => rfl,
      fun _ => rfl, ?_, ?_⟩
    · intro t1
      by_cases ht : t1 = t
      · subst ht
        rw [if_pos rfl, hsubs]
        symm
        apply List.filter_eq_self.mpr
        intro a ha
        have : a ≠ u := fun e => hmem (e ▸ ha)
        simpa using this
      · simp [ht]
    · intro u1 t1
      simp [hsubs, hmem]

theorem nextMessage_effect (h : Heap) (u : UserPtr) (t : TopicPtr) (y : User)
    (hy : h.userObjs[u]? = some y) :
    ∃ h', User.NextMessage h u t =
        some ((headMsg (((h.mbox u t).map Mailbox.buf).getD []), (h.mbox u t).isSome), h') ∧
      (h.mbox u t = none → h' = h) ∧
      (∀ t1, h'.topicName t1 = h.topicName t1) ∧
      (∀ u1, h'.userName u1 = h.userName u1) ∧
      (∀ t1, h'.subs t1 = h.subs t1) ∧
      (∀ u1 t1, h'.mbox u1 t1 =
        if u1 = u ∧ t1 = t then (h.mbox u t).map (fun mb => { buf := mb.buf.drop 1 })
        else h.mbox u1 t1) := by
  have hm : h.mbox u t = mapGet y.Mailboxes t := mbox_of_obj hy t
  cases hget : mapGet y.Mailboxes t with
  | none =>
    refine ⟨h, ?_, fun _ => rfl, fun _ => rfl, fun _ => rfl, fun _ => rfl, ?_⟩
    · simp [User.NextMessage, hy, hget, hm, headMsg]
    · intro u1 t1
      by_cases hc : u1 = u ∧ t1 = t
      · obtain ⟨rfl, rfl⟩ := hc
        simp [hm, hget]
      · simp [hc]
  | some mb =>
    refine ⟨h.putUser u { y with Mailboxes := mapSet y.Mailboxes t { buf := mb.buf.drop 1 } },
      ?_, ?_, fun _ => rfl, ?_, fun _ => rfl, ?_⟩
    · simp [User.NextMessage, hy, hget, hm, pop_eq]
    · intro hn
      rw [hm, hget] at hn
      cases hn
    · intro u1
      exact userName_putUser h u _ y hy (by rfl) u1
    · intro u1 t1
      rw [mbox_putUser h u _ y hy, hm, hget]
      by_cases hu : u1 = u
      · subst hu
        by_cases ht : t1 = t
        · subst ht
          simp [mapGet_mapSet_same]
        · simp [ht, mapGet_mapSet_ne _ _ _ _ ht, mbox_of_obj hy]
      · simp [hu]

theorem publishStep_effect (t : TopicPtr) (m : Bytes) (h : Heap) (u : UserPtr) (mb : Mailbox)
    (hmb : h.mbox u t = some mb) :
    ∃ h', publishStep t m h u = some h' ∧
      (∀ t1, h'.topicName t1 = h.topicName t1) ∧
      (∀ u1, h'.userName u1 = h.userName u1) ∧
      (∀ t1, h'.subs t1 = h.subs t1) ∧
      (∀ u1 t1, h'.mbox u1 t1 =
        if u1 = u ∧ t1 = t then some (mb.Send m) else h.mbox u1 t1) := by
  obtain ⟨y, hy⟩ := userObjs_of_mbox (by rw [hmb]; rfl : (h.mbox u t).isSome = true)
  have hget : mapGet y.Mailboxes t = some mb := by rw [← mbox_of_obj hy t]; exact hmb
  refine ⟨h.putUser u { y with Mailboxes := mapSet y.Mailboxes t (mb.Send m) },
    ?_, fun _ => rfl, ?_, fun _ => rfl, ?_⟩
  · simp [publishStep, hy, hget]
  · intro u1
    exact userName_putUser h u _ y hy (by rfl) u1
  · intro u1 t1
    rw [mbox_putUser h u _ y hy]
    by_cases hu : u1 = u
    · subst hu
      by_cases ht : t1 = t
      · subst ht
        simp [mapGet_mapSet_same]
      · simp [ht, mapGet_mapSet_ne _ _ _ _ ht, mbox_of_obj hy]
    · simp [hu]

theorem publishLoop_effect (t : TopicPtr) (m : Bytes) (order : List UserPtr) :
    ∀ h : Heap, (∀ u ∈ order, (h.mbox u t).isSome = true) →
    ∃ h', publishLoop t m h order = some h' ∧
      (∀ t1, h'.topicName t1 = h.topicName t1) ∧
      (∀ u1, h'.userName u1 = h.userName u1) ∧
      (∀ t1, h'.subs t1 = h.subs t1) ∧
      (∀ u1 t1, h'.mbox u1 t1 =
        if t1 = t then
          (h.mbox u1 t).map
            (fun mb => { buf := mb.buf ++ List.replicate (order.count u1) m })
        else h.mbox u1 t1) := by
  induction order with
  | nil =>
    intro h _
    refine ⟨h, rfl, fun _ => rfl, fun _ => rfl, fun _ => rfl, ?_⟩
    intro u1 t1
    by_cases ht : t1 = t
    · subst ht
      cases h.mbox u1 t1 <;> simp
    · simp [ht]
  | cons u rest ih =>
    intro h hall
    have hu : (h.mbox u t).isSome = true := hall u (List.mem_cons_self u rest)
    obtain ⟨mb, hmb⟩ := Option.isSome_iff_exists.mp hu
    obtain ⟨h1, hstep, hn1, hun1, hs1, hm1⟩ := publishStep_effect t m h u mb hmb
    have hall1 : ∀ v ∈ rest, (h1.mbox v t).isSome = true := by
      intro v hv
      rw [hm1]
      by_cases hvu : v = u
      · simp [hvu]
      · simpa [hvu] using hall v (List.mem_cons_of_mem u hv)
    obtain ⟨h2, hloop, hn2, hun2, hs2, hm2⟩ := ih h1 hall1
    refine ⟨h2, ?_, ?_, ?_, ?_, ?_⟩
    · simp [publishLoop, hstep, hloop]
    · intro t1; rw [hn2, hn1]
    · intro u1; rw [hun2, hun1]
    · intro t1; rw [hs2, hs1]
    · intro u1 t1
      rw [hm2]
      by_cases ht : t1 = t
      · subst ht
        rw [if_pos rfl, if_pos rfl, hm1]
        by_cases hu1 : u1 = u
        · subst hu1
          simp [hmb, Mailbox.Send, List.replicate_succ]
        · have hu2 : ¬ u = u1 := fun e => hu1 e.symm
          simp [hu1, List.count_cons, hu2]
      · rw [if_neg ht, if_neg ht, hm1]
        simp [ht]

theorem publish_effect (h : Heap) (t : TopicPtr) (m : Bytes) (x : Topic)
    (hx : h.topicObjs[t]? = some x) (hwf : h.WF) :
    ∃ h', Topic.Publish h t m = some h' ∧
      (∀ t1, h'.topicName t1 = h.topicName t1) ∧
      (∀ u1, h'.userName u1 = h.userName u1) ∧
      (∀ t1, h'.subs t1 = h.subs t1) ∧
      (∀ u1 t1, h'.mbox u1 t1 =
        if t1 = t then (h.mbox u1 t).map (fun mb => mb.Send m) else h.mbox u1 t1) := by
  have hsubs : h.subs t = x.Subscribers := subs_of_obj hx
  have hall : ∀ u ∈ x.Subscribers, (h.mbox u t).isSome = true := by
    intro u hu
    exact (hwf.1 t u).mp (hsubs ▸ hu)
  obtain ⟨h', hloop, hn, hun, hs, hm⟩ := publishLoop_effect t m x.Subscribers h hall
  refine ⟨h', by simp [Topic.Publish, hx, hloop], hn, hun, hs, ?_⟩
  intro u1 t1
  rw [hm]
  by_cases ht : t1 = t
  · subst ht
    rw [if_pos rfl, if_pos rfl]
    cases hmb : h.mbox u1 t1 with
    | none => rfl
    | some mb =>
      have hmem : u1 ∈ x.Subscribers := by
        rw [← hsubs]
        exact (hwf.1 t1 u1).mpr (by rw [hmb]; rfl)
      have hnd : x.Subscribers.Nodup := hsubs ▸ hwf.2 t1
      simp [Mailbox.Send, List.count_eq_one_of_mem hnd hmem]
  · simp [ht]

/-! ## Preservation of the heap invariant -/

theorem consistent_subscribe_shape (h h' : Heap) (t : TopicPtr) (u : UserPtr)
    (hc : h.Consistent)
    (hs : ∀ t1, h'.subs t1 = if t1 = t then setAdd (h.subs t) u else h.subs t1)
    (hm : ∀ u1 t1, h'.mbox u1 t1 =
      if u1 = u ∧ t1 = t ∧ u ∉ h.subs t then some { buf := [] } else h.mbox u1 t1) :
    h'.Consistent := by
  intro t1 u1
  rw [hs, hm]
  by_cases ht : t1 = t
  · subst ht
    rw [if_pos rfl, mem_setAdd]
    by_cases hu : u1 = u
    · subst hu
      by_cases hmem : u1 ∈ h.subs t1
      · simp [hmem, ← hc t1 u1]
      · simp [hmem]
    · simp [hu, hc t1 u1]
  · simp [ht, hc t1 u1]

theorem consistent_unsubscribe_shape (h h' : Heap) (t : TopicPtr) (u : UserPtr)
    (hc : h.Consistent)
    (hs : ∀ t1, h'.subs t1 = if t1 = t then setDelete (h.subs t) u else h.subs t1)
    (hm : ∀ u1 t1, h'.mbox u1 t1 =
      if u1 = u ∧ t1 = t ∧ u ∈ h.subs t then none else h.mbox u1 t1) :
    h'.Consistent := by
  intro t1 u1
  rw [hs, hm]
  by_cases ht : t1 = t
  · subst ht
    rw [if_pos rfl, mem_setDelete]
    by_cases hu : u1 = u
    · subst hu
      by_cases hmem : u1 ∈ h.subs t1
      · simp [hmem]
      · simp [hmem, ← hc t1 u1]
    · simp [hu, hc t1 u1]
  · simp [ht, hc t1 u1]

theorem consistent_of_isSome_shape (h h' : Heap) (hc : h.Consistent)
    (hs : ∀ t1, h'.subs t1 = h.subs t1)
    (hm : ∀ u1 t1, (h'.mbox u1 t1).isSome = (h.mbox u1 t1).isSome) :
    h'.Consistent := by
  intro t1 u1
  rw [hs, hm]
  exact hc t1 u1

theorem subscribe_some {h h' : Heap} {t : TopicPtr} {u : UserPtr}
    (hr : Topic.Subscribe h t u = some h') :
    ∃ x, h.topicObjs[t]? = some x ∧ (h' = h ∨ ∃ y, h.userObjs[u]? = some y) := by
  unfold Topic.Subscribe at hr
  cases hx : h.topicObjs[t]? with
  | none => simp [hx] at hr
  | some x =>
    refine ⟨x, rfl, ?_⟩
    simp only [hx] at hr
    by_cases hmem : u ∈ x.Subscribers
    · left
      simpa [hmem] using hr.symm
    · right
      cases hy : h.userObjs[u]? with
      | none =>
        have hy1 : (h.putTopic t { x with Subscribers := setAdd x.Subscribers u }).userObjs[u]?
            = none := hy
        simp [hmem, hy1] at hr
      | some y => exact ⟨y, rfl⟩

theorem unsubscribe_some {h : Heap} {r : Bool × Heap} {t : TopicPtr} {u : UserPtr}
    (hr : Topic.Unsubscribe h t u = some r) :
    ∃ x, h.topicObjs[t]? = some x ∧ (r.2 = h ∨ ∃ y, h.userObjs[u]? = some y) := by
  unfold Topic.Unsubscribe at hr
  cases hx : h.topicObjs[t]? with
  | none => simp [hx] at hr
  | some x =>
    refine ⟨x, rfl, ?_⟩
    simp only [hx] at hr
    by_cases hmem : u ∈ x.Subscribers
    · right
      cases hy : h.userObjs[u]? with
      | none =>
        have hy1 : (h.putTopic t { x with Subscribers := setDelete x.Subscribers u }).userObjs[u]?
            = none := hy
        simp [hmem, hy1] at hr
      | some y => exact ⟨y, rfl⟩
    · left
      simp [hmem] at hr
      rw [← hr]

theorem consistent_subscribe (h h' : Heap) (t : TopicPtr) (u : UserPtr) (hc : h.Consistent)
    (hr : Topic.Subscribe h t u = some h') : h'.Consistent := by
  obtain ⟨x, hx, hcase⟩ := subscribe_some hr
  rcases hcase with rfl | ⟨y, hy⟩
  · exact hc
  · obtain ⟨h2, hr2, _, _, hs, hm⟩ := subscribe_effect h t u x y hx hy
    rw [hr] at hr2
    cases hr2
    exact consistent_subscribe_shape h h' t u hc hs hm

theorem consistent_unsubscribe (h : Heap) (r : Bool × Heap) (t : TopicPtr) (u : UserPtr)
    (hc : h.Consistent) (hr : Topic.Unsubscribe h t u = some r) : r.2.Consistent := by
  obtain ⟨x, hx, hcase⟩ := unsubscribe_some hr
  rcases hcase with he | ⟨y, hy⟩
  · rw [he]; exact hc
  · obtain ⟨h2, hr2, _, _, _, hs, hm⟩ := unsubscribe_effect h t u x y hx hy
    rw [hr] at hr2
    cases hr2
    exact consistent_unsubscribe_shape h h2 t u hc hs hm

theorem consistent_nextMessage (h : Heap) (r : (Bytes × Bool) × Heap) (u : UserPtr)
    (t : TopicPtr) (hc : h.Consistent) (hr : User.NextMessage h u t = some r) :
    r.2.Consistent := by
  cases hy : h.userObjs[u]? with
  | none => simp [User.NextMessage, hy] at hr
  | some y =>
    obtain ⟨h2, hr2, _, _, _, hs, hm⟩ := nextMessage_effect h u t y hy
    rw [hr] at hr2
    cases hr2
    refine consistent_of_isSome_shape h h2 hc hs ?_
    intro u1 t1
    rw [hm]
    by_cases hcond : u1 = u ∧ t1 = t
    · obtain ⟨rfl, rfl⟩ := hcond
      simp
    · simp [hcond]

theorem consistent_publish (h h' : Heap) (t : TopicPtr) (m : Bytes) (hc : h.Consistent)
    (hr : Topic.Publish h t m = some h') : h'.Consistent := by
  cases hx : h.topicObjs[t]? with
  | none => simp [Topic.Publish, hx] at hr
  | some x =>
    have hall : ∀ u ∈ x.Subscribers, (h.mbox u t).isSome = true := by
      intro u hu
      exact (hc t u).mp ((subs_of_obj hx).symm ▸ hu)
    obtain ⟨h2, hloop, _, _, hs, hm⟩ := publishLoop_effect t m x.Subscribers h hall
    have hr2 : Topic.Publish h t m = some h2 := by simp [Topic.Publish, hx, hloop]
    rw [hr] at hr2
    cases hr2
    refine consistent_of_isSome_shape h h' hc hs ?_
    intro u1 t1
    rw [hm]
    by_cases ht : t1 = t
    · subst ht
      simp
    · simp [ht]

/-! ## Allocation -/

theorem subs_allocTopic (h : Heap) (x : Topic) (hx : x.Subscribers = []) (t1 : TopicPtr) :
    ({ h with topicObjs := h.topicObjs ++ [x] } : Heap).subs t1 = h.subs t1 := by
  unfold Heap.subs
  rcases Nat.lt_trichotomy t1 h.topicObjs.length with hlt | heq | hgt
  · simp [List.getElem?_append_left hlt]
  · subst heq
    simp [hx]
  · have h1 : h.topicObjs[t1]? = none := List.getElem?_eq_none (Nat.le_of_lt hgt)
    have h2 : (h.topicObjs ++ [x])[t1]? = none := by
      apply List.getElem?_eq_none
      simp
      omega
    simp [h1, h2]

theorem topicName_allocTopic (h : Heap) (x : Topic) (t1 : TopicPtr) :
    ({ h with topicObjs := h.topicObjs ++ [x] } : Heap).topicName t1 =
      if t1 = h.topicObjs.length then some x.Name else h.topicName t1 := by
  unfold Heap.topicName
  rcases Nat.lt_trichotomy t1 h.topicObjs.length with hlt | heq | hgt
  · simp [List.getElem?_append_left hlt, Nat.ne_of_lt hlt]
  · subst heq
    simp
  · have h1 : h.topicObjs[t1]? = none := List.getElem?_eq_none (Nat.le_of_lt hgt)
    have h2 : (h.topicObjs ++ [x])[t1]? = none := by
      apply List.getElem?_eq_none
      simp
      omega
    simp [h1, h2, Nat.ne_of_gt hgt]

theorem mbox_allocUser (h : Heap) (y : User) (hy : y.Mailboxes = []) (u1 : UserPtr)
    (t1 : TopicPtr) :
    ({ h with userObjs := h.userObjs ++ [y] } : Heap).mbox u1 t1 = h.mbox u1 t1 := by
  unfold Heap.mbox
  rcases Nat.lt_trichotomy u1 h.userObjs.length with hlt | heq | hgt
  · simp [List.getElem?_append_left hlt]
  · subst heq
    simp [hy, mapGet]
  · have h1 : h.userObjs[u1]? = none := List.getElem?_eq_none (Nat.le_of_lt hgt)
    have h2 : (h.userObjs ++ [y])[u1]? = none := by
      apply List.getElem?_eq_none
      simp
      omega
    simp [h1, h2]

theorem userName_allocUser (h : Heap) (y : User) (u1 : UserPtr) :
    ({ h with userObjs := h.userObjs ++ [y] } : Heap).userName u1 =
      if u1 = h.userObjs.length then some y.Name else h.userName u1 := by
  unfold Heap.userName
  rcases Nat.lt_trichotomy u1 h.userObjs.length with hlt | heq | hgt
  · simp [List.getElem?_append_left hlt, Nat.ne_of_lt hlt]
  · subst heq
    simp
  · have h1 : h.userObjs[u1]? = none := List.getElem?_eq_none (Nat.le_of_lt hgt)
    have h2 : (h.userObjs ++ [y])[u1]? = none := by
      apply List.getElem?_eq_none
      simp
      omega
    simp [h1, h2, Nat.ne_of_gt hgt]

theorem topicName_lt {h : Heap} {t : TopicPtr} {n : String} (hn : h.topicName t = some n) :
    t < h.topicObjs.length := by
  obtain ⟨x, hx, _⟩ := topicObjs_of_name hn
  by_contra hge
  rw [List.getElem?_eq_none (Nat.le_of_not_lt hge)] at hx
  cases hx

theorem userName_lt {h : Heap} {u : UserPtr} {n : String} (hn : h.userName u = some n) :
    u < h.userObjs.length := by
  obtain ⟨x, hx, _⟩ := userObjs_of_name hn
  by_contra hge
  rw [List.getElem?_eq_none (Nat.le_of_not_lt hge)] at hx
  cases hx

/-! ## Get-or-create -/

theorem getTopic_found (svc : SubscriptionService) (n : String) (p : TopicPtr)
    (hp : mapGet svc.topics n = some p) : svc.getTopic n = (p, svc) := by
  simp [SubscriptionService.getTopic, hp]

theorem getUser_found (svc : SubscriptionService) (n : String) (p : UserPtr)
    (hp : mapGet svc.users n = some p) : svc.getUser n = (p, svc) := by
  simp [SubscriptionService.getUser, hp]

theorem getTopic_fresh (svc : SubscriptionService) (n : String)
    (hp : mapGet svc.topics n = none) :
    svc.getTopic n = (svc.heap.topicObjs.length,
      { svc with
        heap := { svc.heap with
          topicObjs := svc.heap.topicObjs ++ [{ Name := n, Subscribers := [] }] }
        topics := mapSet svc.topics n svc.heap.topicObjs.length }) := by
  simp [SubscriptionService.getTopic, hp]

theorem getUser_fresh (svc : SubscriptionService) (n : String)
    (hp : mapGet svc.users n = none) :
    svc.getUser n = (svc.heap.userObjs.length,
      { svc with
        heap := { svc.heap with
          userObjs := svc.heap.userObjs ++ [{ Name := n, Mailboxes := [] }] }
        users := mapSet svc.users n svc.heap.userObjs.length }) := by
  simp [SubscriptionService.getUser, hp]

theorem getTopic_frame (svc : SubscriptionService) (n : String) :
    (svc.getTopic n).2.users = svc.users ∧
    (∀ t1, (svc.getTopic n).2.heap.subs t1 = svc.heap.subs t1) ∧
    (∀ u1 t1, (svc.getTopic n).2.heap.mbox u1 t1 = svc.heap.mbox u1 t1) ∧
    (∀ u1, (svc.getTopic n).2.heap.userName u1 = svc.heap.userName u1) := by
  cases hp : mapGet svc.topics n with
  | some p =>
    rw [getTopic_found svc n p hp]
    exact ⟨rfl, fun _ => rfl, fun _ _ => rfl, fun _ => rfl⟩
  | none =>
    rw [getTopic_fresh svc n hp]
    exact ⟨rfl, fun t1 => subs_allocTopic svc.heap _ rfl t1, fun _ _ => rfl, fun _ => rfl⟩

theorem getUser_frame (svc : SubscriptionService) (n : String) :
    (svc.getUser n).2.topics = svc.topics ∧
    (∀ t1, (svc.getUser n).2.heap.subs t1 = svc.heap.subs t1) ∧
    (∀ u1 t1, (svc.getUser n).2.heap.mbox u1 t1 = svc.heap.mbox u1 t1) ∧
    (∀ t1, (svc.getUser n).2.heap.topicName t1 = svc.heap.topicName t1) := by
  cases hp : mapGet svc.users n with
  | some p =>
    rw [getUser_found svc n p hp]
    exact ⟨rfl, fun _ => rfl, fun _ _ => rfl, fun _ => rfl⟩
  | none =>
    rw [getUser_fresh svc n hp]
    exact ⟨rfl, fun _ => rfl, fun u1 t1 => mbox_allocUser svc.heap _ rfl u1 t1, fun _ => rfl⟩

theorem getTopic_get (svc : SubscriptionService) (n : String) :
    mapGet (svc.getTopic n).2.topics n = some (svc.getTopic n).1 := by
  cases hp : mapGet svc.topics n with
  | some p =>
    rw [getTopic_found svc n p hp]
    exact hp
  | none =>
    rw [getTopic_fresh svc n hp]
    exact mapGet_mapSet_same _ _ _

theorem getUser_get (svc : SubscriptionService) (n : String) :
    mapGet (svc.getUser n).2.users n = some (svc.getUser n).1 := by
  cases hp : mapGet svc.users n with
  | some p =>
    rw [getUser_found svc n p hp]
    exact hp
  | none =>
    rw [getUser_fresh svc n hp]
    exact mapGet_mapSet_same _ _ _

theorem getTopic_get_ne (svc : SubscriptionService) (n n1 : String) (hne : n1 ≠ n) :
    mapGet (svc.getTopic n).2.topics n1 = mapGet svc.topics n1 := by
  cases hp : mapGet svc.topics n with
  | some p => rw [getTopic_found svc n p hp]
  | none =>
    rw [getTopic_fresh svc n hp]
    exact mapGet_mapSet_ne _ _ _ _ hne

theorem getUser_get_ne (svc : SubscriptionService) (n n1 : String) (hne : n1 ≠ n) :
    mapGet (svc.getUser n).2.users n1 = mapGet svc.users n1 := by
  cases hp : mapGet svc.users n with
  | some p => rw [getUser_found svc n p hp]
  | none =>
    rw [getUser_fresh svc n hp]
    exact mapGet_mapSet_ne _ _ _ _ hne

theorem heapWF_of_frame {h h' : Heap} (hwf : h.WF)
    (hs : ∀ t1, h'.subs t1 = h.subs t1)
    (hm : ∀ u1 t1, h'.mbox u1 t1 = h.mbox u1 t1) : h'.WF := by
  refine ⟨?_, ?_⟩
  · intro t1 u1
    rw [hs, hm]
    exact hwf.1 t1 u1
  · intro t1
    rw [hs]
    exact hwf.2 t1

theorem getTopic_wf (svc : SubscriptionService) (hwf : svc.WF) (n : String) :
    (svc.getTopic n).2.WF := by
  cases hp : mapGet svc.topics n with
  | some p =>
    rw [getTopic_found svc n p hp]
    exact hwf
  | none =>
    obtain ⟨_, hs, hm, hun⟩ := getTopic_frame svc n
    rw [getTopic_fresh svc n hp] at hs hm hun ⊢
    refine ⟨heapWF_of_frame hwf.1 hs hm, ?_, ?_⟩
    · intro n1 p1 hget
      show Heap.topicName _ p1 = some n1
      rw [topicName_allocTopic]
      by_cases hn : n1 = n
      · subst hn
        rw [show mapGet (mapSet svc.topics n1 svc.heap.topicObjs.length) n1 = _ from
          mapGet_mapSet_same _ _ _] at hget
        cases hget
        simp
      · rw [show mapGet (mapSet svc.topics n svc.heap.topicObjs.length) n1 = _ from
          mapGet_mapSet_ne _ _ _ _ hn] at hget
        have hold := hwf.2.1 n1 p1 hget
        rw [if_neg (Nat.ne_of_lt (topicName_lt hold))]
        exact hold
    · intro n1 p1 hget
      exact hwf.2.2 n1 p1 hget

theorem getUser_wf (svc : SubscriptionService) (hwf : svc.WF) (n : String) :
    (svc.getUser n).2.WF := by
  cases hp : mapGet svc.users n with
  | some p =>
    rw [getUser_found svc n p hp]
    exact hwf
  | none =>
    obtain ⟨_, hs, hm, htn⟩ := getUser_frame svc n
    rw [getUser_fresh svc n hp] at hs hm htn ⊢
    refine ⟨heapWF_of_frame hwf.1 hs hm, ?_, ?_⟩
    · intro n1 p1 hget
      exact hwf.2.1 n1 p1 hget
    · intro n1 p1 hget
      show Heap.userName _ p1 = some n1
      rw [userName_allocUser]
      by_cases hn : n1 = n
      · subst hn
        rw [show mapGet (mapSet svc.users n1 svc.heap.userObjs.length) n1 = _ from
          mapGet_mapSet_same _ _ _] at hget
        cases hget
        simp
      · rw [show mapGet (mapSet svc.users n svc.heap.userObjs.length) n1 = _ from
          mapGet_mapSet_ne _ _ _ _ hn] at hget
        have hold := hwf.2.2 n1 p1 hget
        rw [if_neg (Nat.ne_of_lt (userName_lt hold))]
        exact hold

/-! ## The buffered messages of a pair of names -/

theorem view_eq (svc : SubscriptionService) (T U : String) (t : TopicPtr) (u : UserPtr)
    (hT : mapGet svc.topics T = some t) (hU : mapGet svc.users U = some u) :
    svc.view T U = (svc.heap.mbox u t).map Mailbox.buf := by
  simp [SubscriptionService.view, hT, hU]

theorem view_none_topic (svc : SubscriptionService) (T U : String)
    (hT : mapGet svc.topics T = none) : svc.view T U = none := by
  simp [SubscriptionService.view, hT]

theorem view_none_user (svc : SubscriptionService) (T U : String)
    (hU : mapGet svc.users U = none) : svc.view T U = none := by
  unfold SubscriptionService.view
  cases mapGet svc.topics T <;> simp [hU]

theorem topics_inj (svc : SubscriptionService) (hwf : svc.WF) (T T1 : String) (t : TopicPtr)
    (hT : mapGet svc.topics T = some t) (hT1 : mapGet svc.topics T1 = some t) : T1 = T := by
  have h1 := hwf.2.1 T t hT
  have h2 := hwf.2.1 T1 t hT1
  rw [h1] at h2
  exact (Option.some.inj h2).symm

theorem users_inj (svc : SubscriptionService) (hwf : svc.WF) (U U1 : String) (u : UserPtr)
    (hU : mapGet svc.users U = some u) (hU1 : mapGet svc.users U1 = some u) : U1 = U := by
  have h1 := hwf.2.2 U u hU
  have h2 := hwf.2.2 U1 u hU1
  rw [h1] at h2
  exact (Option.some.inj h2).symm

theorem mbox_unalloc_topic (h : Heap) (hc : h.Consistent) (u : UserPtr) (t : TopicPtr)
    (ht : h.topicObjs.length ≤ t) : h.mbox u t = none := by
  cases hm : h.mbox u t with
  | none => rfl
  | some mb =>
    have hmem : u ∈ h.subs t := (hc t u).mpr (by rw [hm]; rfl)
    obtain ⟨x, hx⟩ := topicObjs_of_subs hmem
    rw [List.getElem?_eq_none ht] at hx
    cases hx

theorem mbox_unalloc_user (h : Heap) (u : UserPtr) (t : TopicPtr)
    (hu : h.userObjs.length ≤ u) : h.mbox u t = none := by
  simp [Heap.mbox, List.getElem?_eq_none hu]

theorem subs_unalloc_topic (h : Heap) (t : TopicPtr) (ht : h.topicObjs.length ≤ t) :
    h.subs t = [] := by
  simp [Heap.subs, List.getElem?_eq_none ht]

theorem getTopic_view (svc : SubscriptionService) (hwf : svc.WF) (n T U : String) :
    (svc.getTopic n).2.view T U = svc.view T U := by
  obtain ⟨husers, _, hm, _⟩ := getTopic_frame svc n
  cases hp : mapGet svc.topics n with
  | some p => rw [getTopic_found svc n p hp]
  | none =>
    by_cases hT : T = n
    · subst hT
      rw [view_none_topic svc T U hp]
      cases hU : mapGet svc.users U with
      | none => exact view_none_user _ T U (by rw [husers]; exact hU)
      | some u =>
        rw [view_eq _ T U _ u (getTopic_get svc T) (by rw [husers]; exact hU), hm]
        rw [getTopic_fresh svc T hp]
        rw [mbox_unalloc_topic svc.heap hwf.1.1 u _ (Nat.le_refl _)]
        rfl
    · have hget := getTopic_get_ne svc n T hT
      unfold SubscriptionService.view
      rw [hget, husers]
      cases mapGet svc.topics T with
      | none => rfl
      | some t =>
        cases mapGet svc.users U with
        | none => rfl
        | some u => simp [hm]

theorem getUser_view (svc : SubscriptionService) (n T U : String) :
    (svc.getUser n).2.view T U = svc.view T U := by
  obtain ⟨htopics, _, hm, _⟩ := getUser_frame svc n
  cases hp : mapGet svc.users n with
  | some p => rw [getUser_found svc n p hp]
  | none =>
    by_cases hU : U = n
    · subst hU
      rw [view_none_user svc T U hp]
      cases hT : mapGet svc.topics T with
      | none => exact view_none_topic _ T U (by rw [htopics]; exact hT)
      | some t =>
        rw [view_eq _ T U t _ (by rw [htopics]; exact hT) (getUser_get svc U), hm]
        rw [getUser_fresh svc U hp]
        rw [mbox_unalloc_user svc.heap _ t (Nat.le_refl _)]
        rfl
    · have hget := getUser_get_ne svc n U hU
      unfold SubscriptionService.view
      rw [hget, htopics]
      cases mapGet svc.topics T with
      | none => rfl
      | some t =>
        cases mapGet svc.users U with
        | none => rfl
        | some u => simp [hm]

theorem view_pair_update (s : SubscriptionService) (hwf : s.WF) (h' : Heap) (T U : String)
    (t : TopicPtr) (u : UserPtr) (hT : mapGet s.topics T = some t)
    (hU : mapGet s.users U = some u) (r : Option Mailbox)
    (hm : ∀ u1 t1, h'.mbox u1 t1 = if u1 = u ∧ t1 = t then r else s.heap.mbox u1 t1)
    (T1 U1 : String) :
    ({ s with heap := h' } : SubscriptionService).view T1 U1 =
      if T1 = T ∧ U1 = U then r.map Mailbox.buf else s.view T1 U1 := by
  cases hT1 : mapGet s.topics T1 with
  | none =>
    have hne : ¬ (T1 = T ∧ U1 = U) := by
      rintro ⟨rfl, _⟩
      rw [hT] at hT1
      cases hT1
    rw [if_neg hne, view_none_topic s T1 U1 hT1]
    exact view_none_topic _ T1 U1 hT1
  | some t1 =>
    cases hU1 : mapGet s.users U1 with
    | none =>
      have hne : ¬ (T1 = T ∧ U1 = U) := by
        rintro ⟨_, rfl⟩
        rw [hU] at hU1
        cases hU1
      rw [if_neg hne, view_none_user s T1 U1 hU1]
      exact view_none_user _ T1 U1 hU1
    | some u1 =>
      rw [view_eq s T1 U1 t1 u1 hT1 hU1,
        view_eq { s with heap := h' } T1 U1 t1 u1 hT1 hU1]
      show Option.map Mailbox.buf (h'.mbox u1 t1) = _
      rw [hm]
      by_cases hc : T1 = T ∧ U1 = U
      · obtain ⟨rfl, rfl⟩ := hc
        rw [hT] at hT1
        rw [hU] at hU1
        cases hT1
        cases hU1
        simp
      · have hc2 : ¬ (u1 = u ∧ t1 = t) := by
          rintro ⟨rfl, rfl⟩
          exact hc ⟨topics_inj s hwf T T1 t1 hT hT1, users_inj s hwf U U1 u1 hU hU1⟩
        rw [if_neg hc, if_neg hc2]

theorem view_topic_update (s : SubscriptionService) (hwf : s.WF) (h' : Heap) (T : String)
    (t : TopicPtr) (hT : mapGet s.topics T = some t) (m : Bytes)
    (hm : ∀ u1 t1, h'.mbox u1 t1 =
      if t1 = t then (s.heap.mbox u1 t).map (fun mb => mb.Send m) else s.heap.mbox u1 t1)
    (T1 U1 : String) :
    ({ s with heap := h' } : SubscriptionService).view T1 U1 =
      if T1 = T then (s.view T1 U1).map (fun q => q ++ [m]) else s.view T1 U1 := by
  cases hT1 : mapGet s.topics T1 with
  | none =>
    rw [view_none_topic s T1 U1 hT1, view_none_topic { s with heap := h' } T1 U1 hT1]
    simp
  | some t1 =>
    cases hU1 : mapGet s.users U1 with
    | none =>
      rw [view_none_user s T1 U1 hU1, view_none_user { s with heap := h' } T1 U1 hU1]
      simp
    | some u1 =>
      rw [view_eq s T1 U1 t1 u1 hT1 hU1,
        view_eq { s with heap := h' } T1 U1 t1 u1 hT1 hU1]
      show Option.map Mailbox.buf (h'.mbox u1 t1) = _
      rw [hm]
      by_cases hc : T1 = T
      · subst hc
        rw [hT] at hT1
        cases hT1
        rw [if_pos rfl, if_pos rfl]
        cases s.heap.mbox u1 t <;> simp [Mailbox.Send]
      · have hc2 : ¬ t1 = t := by
          rintro rfl
          exact hc (topics_inj s hwf T T1 t1 hT hT1)
        rw [if_neg hc, if_neg hc2]

theorem wf_of_heap (s : SubscriptionService) (hwf : s.WF) (h' : Heap) (hh : h'.WF)
    (htn : ∀ t1, h'.topicName t1 = s.heap.topicName t1)
    (hun : ∀ u1, h'.userName u1 = s.heap.userName u1) :
    ({ s with heap := h' } : SubscriptionService).WF := by
  refine ⟨hh, ?_, ?_⟩
  · intro n p hget
    show h'.topicName p = some n
    rw [htn]
    exact hwf.2.1 n p hget
  · intro n p hget
    show h'.userName p = some n
    rw [hun]
    exact hwf.2.2 n p hget

theorem resolve (s : SubscriptionService) (hwf : s.WF) (T U : String) :
    ((s.getTopic T).2.getUser U).2.WF ∧
    mapGet ((s.getTopic T).2.getUser U).2.topics T = some (s.getTopic T).1 ∧
    mapGet ((s.getTopic T).2.getUser U).2.users U = some ((s.getTopic T).2.getUser U).1 ∧
    (∀ T1 U1, ((s.getTopic T).2.getUser U).2.view T1 U1 = s.view T1 U1) ∧
    (∃ x, ((s.getTopic T).2.getUser U).2.heap.topicObjs[(s.getTopic T).1]? = some x) ∧
    (∃ y, ((s.getTopic T).2.getUser U).2.heap.userObjs[((s.getTopic T).2.getUser U).1]?
      = some y) := by
  have hwf1 := getTopic_wf s hwf T
  have hwf2 := getUser_wf _ hwf1 U
  have hT2 : mapGet ((s.getTopic T).2.getUser U).2.topics T = some (s.getTopic T).1 := by
    rw [(getUser_frame (s.getTopic T).2 U).1]
    exact getTopic_get s T
  have hU2 := getUser_get (s.getTopic T).2 U
  refine ⟨hwf2, hT2, hU2, ?_, ?_, ?_⟩
  · intro T1 U1
    rw [getUser_view, getTopic_view s hwf]
  · obtain ⟨x, hx, _⟩ := topicObjs_of_name (hwf2.2.1 T _ hT2)
    exact ⟨x, hx⟩
  · obtain ⟨y, hy, _⟩ := userObjs_of_name (hwf2.2.2 U _ hU2)
    exact ⟨y, hy⟩

theorem resolveTopic (s : SubscriptionService) (hwf : s.WF) (T : String) :
    (s.getTopic T).2.WF ∧
    mapGet (s.getTopic T).2.topics T = some (s.getTopic T).1 ∧
    (∀ T1 U1, (s.getTopic T).2.view T1 U1 = s.view T1 U1) ∧
    (∃ x, (s.getTopic T).2.heap.topicObjs[(s.getTopic T).1]? = some x) := by
  have hwf1 := getTopic_wf s hwf T
  have hT1 := getTopic_get s T
  refine ⟨hwf1, hT1, fun T1 U1 => getTopic_view s hwf T T1 U1, ?_⟩
  obtain ⟨x, hx, _⟩ := topicObjs_of_name (hwf1.2.1 T _ hT1)
  exact ⟨x, hx⟩

theorem view_isSome_iff (s : SubscriptionService) (hwf : s.WF) (T U : String)
    (t : TopicPtr) (u : UserPtr) (hT : mapGet s.topics T = some t)
    (hU : mapGet s.users U = some u) :
    u ∈ s.heap.subs t ↔ (s.view T U).isSome = true := by
  rw [view_eq s T U t u hT hU, hwf.1.1 t u]
  simp

/-! ## Effect of the registry operations on the buffered messages -/

theorem subscribe_sim (s : SubscriptionService) (hwf : s.WF) (T U : String) :
    ∃ s', s.Subscribe T U = some s' ∧ s'.WF ∧
      ∀ T1 U1, s'.view T1 U1 =
        if T1 = T ∧ U1 = U then some ((s.view T U).getD []) else s.view T1 U1 := by
  obtain ⟨hwf2, hT2, hU2, hview, ⟨x, hx⟩, ⟨y, hy⟩⟩ := resolve s hwf T U
  set s2 := ((s.getTopic T).2.getUser U).2 with hs2
  set t := (s.getTopic T).1 with ht
  set u := ((s.getTopic T).2.getUser U).1 with hu
  obtain ⟨h', heff, htn, hun, hs, hm⟩ := subscribe_effect s2.heap t u x y hx hy
  have hcons : h'.Consistent := consistent_subscribe_shape s2.heap h' t u hwf2.1.1 hs hm
  have hnd : ∀ t1, (h'.subs t1).Nodup := by
    intro t1
    rw [hs]
    by_cases h1 : t1 = t
    · rw [if_pos h1]
      exact nodup_setAdd _ _ (hwf2.1.2 t)
    · rw [if_neg h1]
      exact hwf2.1.2 t1
  refine ⟨{ s2 with heap := h' }, ?_, wf_of_heap s2 hwf2 h' ⟨hcons, hnd⟩ htn hun, ?_⟩
  · simp only [SubscriptionService.Subscribe]
    rw [← hs2, ← ht, ← hu, heff]
  · intro T1 U1
    have hm' : ∀ u1 t1, h'.mbox u1 t1 =
        if u1 = u ∧ t1 = t then
          (if u ∈ s2.heap.subs t then s2.heap.mbox u t else some { buf := [] })
        else s2.heap.mbox u1 t1 := by
      intro u1 t1
      rw [hm]
      by_cases hc : u1 = u ∧ t1 = t
      · rw [if_pos hc, hc.1, hc.2]
        by_cases hmem : u ∈ s2.heap.subs t <;> simp [hmem]
      · have hc2 : ¬ (u1 = u ∧ t1 = t ∧ u ∉ s2.heap.subs t) := fun e => hc ⟨e.1, e.2.1⟩
        rw [if_neg hc, if_neg hc2]
    rw [view_pair_update s2 hwf2 h' T U t u hT2 hU2 _ hm' T1 U1, hview]
    by_cases hc : T1 = T ∧ U1 = U
    · rw [if_pos hc, if_pos hc, ← hview T U, view_eq s2 T U t u hT2 hU2]
      by_cases hmem : u ∈ s2.heap.subs t
      · rw [if_pos hmem]
        have hsome := (hwf2.1.1 t u).mp hmem
        obtain ⟨mb, hmb⟩ := Option.isSome_iff_exists.mp hsome
        simp [hmb]
      · rw [if_neg hmem]
        have hnone : s2.heap.mbox u t = none := by
          cases hmb : s2.heap.mbox u t with
          | none => rfl
          | some mb => exact absurd ((hwf2.1.1 t u).mpr (by rw [hmb]; rfl)) hmem
        simp [hnone]
    · rw [if_neg hc, if_neg hc]

theorem unsubscribe_sim (s : SubscriptionService) (hwf : s.WF) (T U : String) :
    ∃ s', s.Unsubscribe T U = some ((s.view T U).isSome, s') ∧ s'.WF ∧
      ∀ T1 U1, s'.view T1 U1 = if T1 = T ∧ U1 = U then none else s.view T1 U1 := by
  obtain ⟨hwf2, hT2, hU2, hview, ⟨x, hx⟩, ⟨y, hy⟩⟩ := resolve s hwf T U
  set s2 := ((s.getTopic T).2.getUser U).2 with hs2
  set t := (s.getTopic T).1 with ht
  set u := ((s.getTopic T).2.getUser U).1 with hu
  obtain ⟨h', heff, _, htn, hun, hs, hm⟩ := unsubscribe_effect s2.heap t u x y hx hy
  have hcons : h'.Consistent := consistent_unsubscribe_shape s2.heap h' t u hwf2.1.1 hs hm
  have hnd : ∀ t1, (h'.subs t1).Nodup := by
    intro t1
    rw [hs]
    by_cases h1 : t1 = t
    · rw [if_pos h1]
      exact nodup_setDelete _ _ (hwf2.1.2 t)
    · rw [if_neg h1]
      exact hwf2.1.2 t1
  have hiff := view_isSome_iff s2 hwf2 T U t u hT2 hU2
  rw [hview] at hiff
  refine ⟨{ s2 with heap := h' }, ?_, wf_of_heap s2 hwf2 h' ⟨hcons, hnd⟩ htn hun, ?_⟩
  · simp only [SubscriptionService.Unsubscribe]
    rw [← hs2, ← ht, ← hu, heff]
    have hdec : decide (u ∈ s2.heap.subs t) = (s.view T U).isSome := by
      by_cases hmem : u ∈ s2.heap.subs t
      · simp [hmem, hiff.mp hmem]
      · have : (s.view T U).isSome = false := by
          cases hv : (s.view T U).isSome with
          | false => rfl
          | true => exact absurd (hiff.mpr hv) hmem
        simp [hmem, this]
    simp [hdec]
  · intro T1 U1
    have hm' : ∀ u1 t1, h'.mbox u1 t1 =
        if u1 = u ∧ t1 = t then none else s2.heap.mbox u1 t1 := by
      intro u1 t1
      rw [hm]
      by_cases hc : u1 = u ∧ t1 = t
      · rw [if_pos hc, hc.1, hc.2]
        by_cases hmem : u ∈ s2.heap.subs t
        · simp [hmem]
        · have hnone : s2.heap.mbox u t = none := by
            cases hmb : s2.heap.mbox u t with
            | none => rfl
            | some mb => exact absurd ((hwf2.1.1 t u).mpr (by rw [hmb]; rfl)) hmem
          simp [hmem, hnone]
      · have hc2 : ¬ (u1 = u ∧ t1 = t ∧ u ∈ s2.heap.subs t) := fun e => hc ⟨e.1, e.2.1⟩
        rw [if_neg hc, if_neg hc2]
    rw [view_pair_update s2 hwf2 h' T U t u hT2 hU2 none hm' T1 U1, hview]
    rfl

theorem publish_sim (s : SubscriptionService) (hwf : s.WF) (T : String) (m : Bytes) :
    ∃ s', s.Publish T m = some s' ∧ s'.WF ∧
      ∀ T1 U1, s'.view T1 U1 =
        if T1 = T then (s.view T1 U1).map (fun q => q ++ [m]) else s.view T1 U1 := by
  obtain ⟨hwf1, hT1, hview, ⟨x, hx⟩⟩ := resolveTopic s hwf T
  set s1 := (s.getTopic T).2 with hs1
  set t := (s.getTopic T).1 with ht
  obtain ⟨h', heff, htn, hun, hs, hm⟩ := publish_effect s1.heap t m x hx hwf1.1
  have hwfh : h'.WF := by
    refine ⟨consistent_publish s1.heap h' t m hwf1.1.1 heff, ?_⟩
    intro t1
    rw [hs]
    exact hwf1.1.2 t1
  refine ⟨{ s1 with heap := h' }, ?_, wf_of_heap s1 hwf1 h' hwfh htn hun, ?_⟩
  · simp only [SubscriptionService.Publish]
    rw [← hs1, ← ht, heff]
  · intro T1 U1
    rw [view_topic_update s1 hwf1 h' T t hT1 m hm T1 U1, hview]

theorem pollNext_sim (s : SubscriptionService) (hwf : s.WF) (T U : String) :
    ∃ s', s.PollNext T U =
        some ((headMsg ((s.view T U).getD []), (s.view T U).isSome), s') ∧ s'.WF ∧
      ∀ T1 U1, s'.view T1 U1 =
        if T1 = T ∧ U1 = U then (s.view T U).map (List.drop 1) else s.view T1 U1 := by
  obtain ⟨hwf2, hT2, hU2, hview, _, ⟨y, hy⟩⟩ := resolve s hwf T U
  set s2 := ((s.getTopic T).2.getUser U).2 with hs2
  set t := (s.getTopic T).1 with ht
  set u := ((s.getTopic T).2.getUser U).1 with hu
  obtain ⟨h', heff, _, htn, hun, hs, hm⟩ := nextMessage_effect s2.heap u t y hy
  have hveq : s.view T U = (s2.heap.mbox u t).map Mailbox.buf := by
    rw [← hview T U, view_eq s2 T U t u hT2 hU2]
  have hwfh : h'.WF := by
    refine ⟨consistent_of_isSome_shape s2.heap h' hwf2.1.1 hs ?_, ?_⟩
    · intro u1 t1
      rw [hm]
      by_cases hc : u1 = u ∧ t1 = t
      · rw [if_pos hc, hc.1, hc.2]
        simp
      · rw [if_neg hc]
    · intro t1
      rw [hs]
      exact hwf2.1.2 t1
  refine ⟨{ s2 with heap := h' }, ?_, wf_of_heap s2 hwf2 h' hwfh htn hun, ?_⟩
  · simp only [SubscriptionService.PollNext]
    rw [← hs2, ← ht, ← hu, heff, hveq]
    simp
  · intro T1 U1
    rw [view_pair_update s2 hwf2 h' T U t u hT2 hU2 _ hm T1 U1, hview, hveq]
    by_cases hc : T1 = T ∧ U1 = U
    · rw [if_pos hc, if_pos hc]
      cases s2.heap.mbox u t <;> simp
    · rw [if_neg hc, if_neg hc]

theorem wf_empty : SubscriptionService.empty.WF := by
  refine ⟨⟨?_, ?_⟩, ?_, ?_⟩
  · intro t u
    simp [Heap.subs, Heap.mbox, SubscriptionService.empty]
  · intro t
    simp [Heap.subs, SubscriptionService.empty]
  · intro n p hget
    simp [SubscriptionService.empty, mapGet] at hget
  · intro n p hget
    simp [SubscriptionService.empty, mapGet] at hget

theorem wf_step (s s' : SubscriptionService) (op : Op) (hwf : s.WF)
    (hstep : step s op = some s') : s'.WF := by
  cases op with
  | subscribe T U =>
    obtain ⟨s1, h1, hwf1, _⟩ := subscribe_sim s hwf T U
    simp only [step] at hstep
    rw [h1] at hstep
    cases hstep
    exact hwf1
  | unsubscribe T U =>
    obtain ⟨s1, h1, hwf1, _⟩ := unsubscribe_sim s hwf T U
    simp only [step] at hstep
    rw [h1] at hstep
    cases hstep
    exact hwf1
  | publish T m =>
    obtain ⟨s1, h1, hwf1, _⟩ := publish_sim s hwf T m
    simp only [step] at hstep
    rw [h1] at hstep
    cases hstep
    exact hwf1
  | pollNext T U =>
    obtain ⟨s1, h1, hwf1, _⟩ := pollNext_sim s hwf T U
    simp only [step] at hstep
    rw [h1] at hstep
    cases hstep
    exact hwf1

theorem wf_run (ops : List Op) : ∀ s s' : SubscriptionService, s.WF →
    run s ops = some s' → s'.WF := by
  induction ops with
  | nil =>
    intro s s' hwf hrun
    simp only [run] at hrun
    cases hrun
    exact hwf
  | cons op rest ih =>
    intro s s' hwf hrun
    simp only [run] at hrun
    cases hst : step s op with
    | none => simp [hst] at hrun
    | some s1 =>
      simp only [hst] at hrun
      exact ih s1 s' (wf_step s s1 op hwf hst) hrun

theorem wf_reachable (s : SubscriptionService) (hr : Reachable s) : s.WF := by
  obtain ⟨ops, hrun⟩ := hr
  exact wf_run ops _ s wf_empty hrun

theorem step_total (s : SubscriptionService) (hwf : s.WF) (op : Op) :
    ∃ s', step s op = some s' := by
  cases op with
  | subscribe T U =>
    obtain ⟨s1, h1, _, _⟩ := subscribe_sim s hwf T U
    exact ⟨s1, by simp only [step]; exact h1⟩
  | unsubscribe T U =>
    obtain ⟨s1, h1, _, _⟩ := unsubscribe_sim s hwf T U
    exact ⟨s1, by simp only [step]; rw [h1]; rfl⟩
  | publish T m =>
    obtain ⟨s1, h1, _, _⟩ := publish_sim s hwf T m
    exact ⟨s1, by simp only [step]; exact h1⟩
  | pollNext T U =>
    obtain ⟨s1, h1, _, _⟩ := pollNext_sim s hwf T U
    exact ⟨s1, by simp only [step]; rw [h1]; rfl⟩

theorem reachable_svcTU : Reachable svcTU :=
  ⟨[Op.subscribe "t" "u"], by decide⟩

theorem reachable_svcTUa : Reachable svcTUa :=
  ⟨[Op.subscribe "t" "u", Op.publish "t" (some [97])], by decide⟩

theorem reachable_empty : Reachable SubscriptionService.empty :=
  ⟨[], rfl⟩

theorem consistent_getTopic (svc : SubscriptionService) (n : String)
    (hc : svc.heap.Consistent) : (svc.getTopic n).2.heap.Consistent := by
  obtain ⟨_, hs, hm, _⟩ := getTopic_frame svc n
  intro t u
  rw [hs, hm]
  exact hc t u

theorem consistent_getUser (svc : SubscriptionService) (n : String)
    (hc : svc.heap.Consistent) : (svc.getUser n).2.heap.Consistent := by
  obtain ⟨_, hs, hm, _⟩ := getUser_frame svc n
  intro t u
  rw [hs, hm]
  exact hc t u

theorem publish_list (T U : String) (ms : List Bytes) :
    ∀ (s : SubscriptionService) (q : List Bytes), s.WF → s.view T U = some q →
    ∃ s1, run s (ms.map (Op.publish T)) = some s1 ∧ s1.WF ∧ s1.view T U = some (q ++ ms) := by
  induction ms with
  | nil =>
    intro s q hwf hv
    exact ⟨s, rfl, hwf, by simpa using hv⟩
  | cons m rest ih =>
    intro s q hwf hv
    obtain ⟨s1, h1, hwf1, hv1⟩ := publish_sim s hwf T m
    have hv1' : s1.view T U = some (q ++ [m]) := by
      rw [hv1, if_pos rfl, hv]
      rfl
    obtain ⟨s2, h2, hwf2, hv2⟩ := ih s1 (q ++ [m]) hwf1 hv1'
    refine ⟨s2, ?_, hwf2, by simpa using hv2⟩
    simp only [List.map_cons, run, step, h1]
    exact h2

theorem poll_list (T U : String) (q : List Bytes) :
    ∀ (s : SubscriptionService), s.WF → s.view T U = some q →
    ∃ s2, pollN s T U q.length = some (q.map (fun m => (m, true)), s2) ∧ s2.WF ∧
      s2.view T U = some [] := by
  induction q with
  | nil =>
    intro s hwf hv
    exact ⟨s, rfl, hwf, hv⟩
  | cons m rest ih =>
    intro s hwf hv
    obtain ⟨s1, h1, hwf1, hv1⟩ := pollNext_sim s hwf T U
    have hv1' : s1.view T U = some rest := by
      rw [hv1, if_pos ⟨rfl, rfl⟩, hv]
      rfl
    obtain ⟨s2, h2, hwf2, hv2⟩ := ih s1 hwf1 hv1'
    refine ⟨s2, ?_, hwf2, hv2⟩
    rw [hv] at h1
    simp only [List.length_cons, pollN, h1, h2]
    rfl

theorem poll_pair (s : SubscriptionService) (hwf : s.WF) (T A B : String) (hne : A ≠ B)
    (m : Bytes) (hA : s.view T A = some [m]) (hB : s.view T B = some [m]) :
    ∃ s4 s5, s.PollNext T A = some ((m, true), s4) ∧ s4.view T B = s.view T B ∧
      s4.PollNext T B = some ((m, true), s5) := by
  obtain ⟨s4, h4, hwf4, hv4⟩ := pollNext_sim s hwf T A
  have hB4 : s4.view T B = s.view T B := by
    rw [hv4, if_neg (fun e => hne e.2.symm)]
  obtain ⟨s5, h5, _, _⟩ := pollNext_sim s4 hwf4 T B
  rw [hA] at h4
  rw [hB4, hB] at h5
  exact ⟨s4, s5, h4, hB4, h5⟩

theorem topicSubscribe_noop (h : Heap) (t : TopicPtr) (u : UserPtr) (hmem : u ∈ h.subs t) :
    Topic.Subscribe h t u = some h := by
  obtain ⟨x, hx⟩ := topicObjs_of_subs hmem
  rw [subs_of_obj hx] at hmem
  simp [Topic.Subscribe, hx, hmem]

theorem topicSubscribe_mem (h h' : Heap) (t : TopicPtr) (u : UserPtr)
    (hr : Topic.Subscribe h t u = some h') : u ∈ h'.subs t := by
  obtain ⟨x, hx, hcase⟩ := subscribe_some hr
  by_cases hmem : u ∈ x.Subscribers
  · have hh : Topic.Subscribe h t u = some h := by simp [Topic.Subscribe, hx, hmem]
    rw [hr] at hh
    cases hh
    rw [subs_of_obj hx]
    exact hmem
  · rcases hcase with rfl | ⟨y, hy⟩
    · exfalso
      cases hy : h'.userObjs[u]? with
      | none =>
        have hy2 : (h'.putTopic t { x with Subscribers := setAdd x.Subscribers u }).userObjs[u]?
            = none := hy
        simp [Topic.Subscribe, hx, hmem, hy2] at hr
      | some y =>
        obtain ⟨h2, hr2, _, _, hs, _⟩ := subscribe_effect h' t u x y hx hy
        rw [hr] at hr2
        cases hr2
        have h3 := hs t
        rw [if_pos rfl, subs_of_obj hx] at h3
        have h4 : u ∈ setAdd x.Subscribers u := (mem_setAdd _ _ _).mpr (Or.inr rfl)
        rw [← h3] at h4
        exact hmem h4
    · obtain ⟨h2, hr2, _, _, hs, _⟩ := subscribe_effect h t u x y hx hy
      rw [hr] at hr2
      cases hr2
      rw [hs t, if_pos rfl]
      exact (mem_setAdd _ _ _).mpr (Or.inr rfl)

theorem topicSubscribe_twice (h : Heap) (t : TopicPtr) (u : UserPtr) :
    (Topic.Subscribe h t u).bind (fun h1 => Topic.Subscribe h1 t u) = Topic.Subscribe h t u := by
  cases hr : Topic.Subscribe h t u with
  | none => rfl
  | some h1 =>
    show Topic.Subscribe h1 t u = some h1
    exact topicSubscribe_noop h1 t u (topicSubscribe_mem h h1 t u hr)

theorem subscribe_noop (s : SubscriptionService) (T U : String)
    (hsub : s.subscribed T U = true) : s.Subscribe T U = some s := by
  unfold SubscriptionService.subscribed at hsub
  cases hT : mapGet s.topics T with
  | none => simp [hT] at hsub
  | some t =>
    cases hU : mapGet s.users U with
    | none => simp [hT, hU] at hsub
    | some u =>
      simp only [hT, hU, decide_eq_true_eq] at hsub
      simp only [SubscriptionService.Subscribe]
      rw [getTopic_found s T t hT]
      simp only []
      rw [getUser_found s U u hU]
      simp only []
      rw [topicSubscribe_noop s.heap t u hsub]

theorem subscribe_subscribed (s s1 : SubscriptionService) (T U : String)
    (hr : s.Subscribe T U = some s1) : s1.subscribed T U = true := by
  simp only [SubscriptionService.Subscribe] at hr
  have hT2 : mapGet ((s.getTopic T).2.getUser U).2.topics T = some (s.getTopic T).1 := by
    rw [(getUser_frame (s.getTopic T).2 U).1]
    exact getTopic_get s T
  have hU2 := getUser_get (s.getTopic T).2 U
  cases hh : Topic.Subscribe ((s.getTopic T).2.getUser U).2.heap (s.getTopic T).1
      ((s.getTopic T).2.getUser U).1 with
  | none => simp [hh] at hr
  | some h' =>
    simp only [hh, Option.some.injEq] at hr
    have hmem := topicSubscribe_mem _ h' _ _ hh
    rw [← hr]
    unfold SubscriptionService.subscribed
    simp only [hT2, hU2]
    simpa using hmem

theorem subscribed_eq_view (s : SubscriptionService) (hwf : s.WF) (T U : String) :
    s.subscribed T U = (s.view T U).isSome := by
  unfold SubscriptionService.subscribed
  cases hT : mapGet s.topics T with
  | none => simp [view_none_topic s T U hT]
  | some t =>
    cases hU : mapGet s.users U with
    | none => simp [view_none_user s T U hU]
    | some u =>
      have hiff := view_isSome_iff s hwf T U t u hT hU
      by_cases hmem : u ∈ s.heap.subs t
      · simp [hmem, hiff.mp hmem]
      · cases hv : (s.view T U).isSome with
        | false => simp [hmem]
        | true => exact absurd (hiff.mpr hv) hmem

theorem run_no_subscribe (T U : String) (ops : List Op) :
    ∀ (s : SubscriptionService), s.WF → s.view T U = none → Op.subscribe T U ∉ ops →
    ∃ s', run s ops = some s' ∧ s'.WF ∧ s'.view T U = none := by
  induction ops with
  | nil =>
    intro s hwf hv _
    exact ⟨s, rfl, hwf, hv⟩
  | cons op rest ih =>
    intro s hwf hv hno
    have hrest : Op.subscribe T U ∉ rest := fun e => hno (List.mem_cons_of_mem op e)
    have hop : op ≠ Op.subscribe T U := fun e => hno (e ▸ List.mem_cons_self op rest)
    have key : ∃ s1, step s op = some s1 ∧ s1.WF ∧ s1.view T U = none := by
      cases op with
      | subscribe T1 U1 =>
        obtain ⟨s1, e1, hwf1, hv1⟩ := subscribe_sim s hwf T1 U1
        refine ⟨s1, e1, hwf1, ?_⟩
        rw [hv1, if_neg, hv]
        rintro ⟨rfl, rfl⟩
        exact hop rfl
      | unsubscribe T1 U1 =>
        obtain ⟨s1, e1, hwf1, hv1⟩ := unsubscribe_sim s hwf T1 U1
        refine ⟨s1, by simp only [step]; rw [e1]; rfl, hwf1, ?_⟩
        rw [hv1]
        split
        · rfl
        · exact hv
      | publish T1 m =>
        obtain ⟨s1, e1, hwf1, hv1⟩ := publish_sim s hwf T1 m
        refine ⟨s1, e1, hwf1, ?_⟩
        rw [hv1, hv]
        simp
      | pollNext T1 U1 =>
        obtain ⟨s1, e1, hwf1, hv1⟩ := pollNext_sim s hwf T1 U1
        refine ⟨s1, by simp only [step]; rw [e1]; rfl, hwf1, ?_⟩
        rw [hv1]
        split
        · rename_i hc
          rw [← hc.1, ← hc.2, hv]
          rfl
        · exact hv
    obtain ⟨s1, e1, hwf1, hv1⟩ := key
    obtain ⟨s2, e2, hwf2, hv2⟩ := ih s1 hwf1 hv1 hrest
    exact ⟨s2, by simp only [run, e1]; exact e2, hwf2, hv2⟩

theorem consistent_step (svc svc' : SubscriptionService) (op : Op)
    (hc : svc.heap.Consistent) (hstep : step svc op = some svc') : svc'.heap.Consistent := by
  have hc2 : ∀ T U, ((svc.getTopic T).2.getUser U).2.heap.Consistent :=
    fun T U => consistent_getUser _ U (consistent_getTopic svc T hc)
  cases op with
  | subscribe T U =>
    simp only [step, SubscriptionService.Subscribe] at hstep
    cases hh : Topic.Subscribe ((svc.getTopic T).2.getUser U).2.heap (svc.getTopic T).1
        ((svc.getTopic T).2.getUser U).1 with
    | none => simp [hh] at hstep
    | some h' =>
      simp only [hh, Option.some.injEq] at hstep
      rw [← hstep]
      exact consistent_subscribe _ h' _ _ (hc2 T U) hh
  | unsubscribe T U =>
    simp only [step, SubscriptionService.Unsubscribe] at hstep
    cases hh : Topic.Unsubscribe ((svc.getTopic T).2.getUser U).2.heap (svc.getTopic T).1
        ((svc.getTopic T).2.getUser U).1 with
    | none => simp [hh] at hstep
    | some r =>
      simp only [hh, Option.map_some', Option.some.injEq] at hstep
      rw [← hstep]
      exact consistent_unsubscribe _ r _ _ (hc2 T U) hh
  | publish T m =>
    simp only [step, SubscriptionService.Publish] at hstep
    cases hh : Topic.Publish (svc.getTopic T).2.heap (svc.getTopic T).1 m with
    | none => simp [hh] at hstep
    | some h' =>
      simp only [hh, Option.some.injEq] at hstep
      rw [← hstep]
      exact consistent_publish _ h' _ m (consistent_getTopic svc T hc) hh
  | pollNext T U =>
    simp only [step, SubscriptionService.PollNext] at hstep
    cases hh : User.NextMessage ((svc.getTopic T).2.getUser U).2.heap
        ((svc.getTopic T).2.getUser U).1 (svc.getTopic T).1 with
    | none => simp [hh] at hstep
    | some r =>
      simp only [hh, Option.map_some', Option.some.injEq] at hstep
      rw [← hstep]
      exact consistent_nextMessage _ r _ _ (hc2 T U) hh

theorem sendAll_buf (ms : List Bytes) : ∀ m : Mailbox, (sendAll m ms).buf = m.buf ++ ms := by
  induction ms with
  | nil => intro m; simp [sendAll]
  | cons a rest ih =>
    intro m
    simp [sendAll, ih, Mailbox.Send]

theorem popN_all (q : List Bytes) :
    ∀ m : Mailbox, m.buf = q → popN m q.length = some (q, { buf := [] }) := by
  induction q with
  | nil =>
    intro m hm
    obtain ⟨buf⟩ := m
    simp only at hm
    subst hm
    rfl
  | cons a rest ih =>
    intro m hm
    have hpop : m.Pop = some (a, { buf := rest }) := by
      rw [pop_eq, hm]
      rfl
    simp only [List.length_cons, popN, hpop, ih { buf := rest } rfl]

theorem getTopic_other (s : SubscriptionService) (n : String) (t1 : TopicPtr)
    (hne : t1 ≠ (s.getTopic n).1) :
    (s.getTopic n).2.heap.topicObjs[t1]? = s.heap.topicObjs[t1]? := by
  cases hp : mapGet s.topics n with
  | some p => rw [getTopic_found s n p hp]
  | none =>
    rw [getTopic_fresh s n hp] at hne ⊢
    simp only at hne ⊢
    rcases Nat.lt_or_gt_of_ne hne with hlt | hgt
    · exact List.getElem?_append_left hlt
    · rw [List.getElem?_eq_none (Nat.le_of_lt hgt)]
      apply List.getElem?_eq_none
      simp
      omega

theorem getUser_other (s : SubscriptionService) (n : String) (u1 : UserPtr)
    (hne : u1 ≠ (s.getUser n).1) :
    (s.getUser n).2.heap.userObjs[u1]? = s.heap.userObjs[u1]? := by
  cases hp : mapGet s.users n with
  | some p => rw [getUser_found s n p hp]
  | none =>
    rw [getUser_fresh s n hp] at hne ⊢
    simp only at hne ⊢
    rcases Nat.lt_or_gt_of_ne hne with hlt | hgt
    · exact List.getElem?_append_left hlt
    · rw [List.getElem?_eq_none (Nat.le_of_lt hgt)]
      apply List.getElem?_eq_none
      simp
      omega

theorem nonNil_run (ops : List Op) (hops : ∀ T m, Op.publish T m ∈ ops → m ≠ none) :
    ∀ s s' : SubscriptionService, s.WF →
    (∀ T U q, s.view T U = some q → ∀ x ∈ q, x ≠ none) →
    run s ops = some s' →
    ∀ T U q, s'.view T U = some q → ∀ x ∈ q, x ≠ none := by
  induction ops with
  | nil =>
    intro s s' _ hinv hrun
    simp only [run] at hrun
    cases hrun
    exact hinv
  | cons op rest ih =>
    intro s s' hwf hinv hrun
    have hrest : ∀ T m, Op.publish T m ∈ rest → m ≠ none :=
      fun T m hmem => hops T m (List.mem_cons_of_mem op hmem)
    simp only [run] at hrun
    cases hst : step s op with
    | none => simp [hst] at hrun
    | some s1 =>
      simp only [hst] at hrun
      refine ih hrest s1 s' (wf_step s s1 op hwf hst) ?_ hrun
      intro T U q hq x hx
      cases op with
      | subscribe T1 U1 =>
        obtain ⟨s2, e, _, hv⟩ := subscribe_sim s hwf T1 U1
        simp only [step] at hst
        rw [e] at hst
        cases hst
        rw [hv] at hq
        split at hq
        · cases hv0 : s.view T1 U1 with
          | none =>
            rw [hv0] at hq
            cases hq
            cases hx
          | some q0 =>
            rw [hv0] at hq
            cases hq
            exact hinv T1 U1 q0 hv0 x hx
        · exact hinv T U q hq x hx
      | unsubscribe T1 U1 =>
        obtain ⟨s2, e, _, hv⟩ := unsubscribe_sim s hwf T1 U1
        simp only [step] at hst
        rw [e] at hst
        cases hst
        rw [hv] at hq
        split at hq
        · cases hq
        · exact hinv T U q hq x hx
      | publish T1 m =>
        obtain ⟨s2, e, _, hv⟩ := publish_sim s hwf T1 m
        simp only [step] at hst
        rw [e] at hst
        cases hst
        rw [hv] at hq
        split at hq
        · cases hv0 : s.view T U with
          | none => rw [hv0] at hq; cases hq
          | some q0 =>
            rw [hv0] at hq
            cases hq
            rcases List.mem_append.mp hx with h1 | h1
            · exact hinv T U q0 hv0 x h1
            · rw [List.mem_singleton] at h1
              rw [h1]
              exact hops T1 m (List.mem_cons_self _ _)
        · exact hinv T U q hq x hx
      | pollNext T1 U1 =>
        obtain ⟨s2, e, _, hv⟩ := pollNext_sim s hwf T1 U1
        simp only [step] at hst
        rw [e] at hst
        cases hst
        rw [hv] at hq
        split at hq
        · cases hv0 : s.view T1 U1 with
          | none => rw [hv0] at hq; cases hq
          | some q0 =>
            rw [hv0] at hq
            cases hq
            exact hinv T1 U1 q0 hv0 x (List.mem_of_mem_drop hx)
        · exact hinv T U q hq x hx

theorem ledger_step (T U : String) (s : SubscriptionService) (l : Ledger) (op : Op)
    (hwf : s.WF) (hinv : ∀ q, s.view T U = some q → l.delivered ++ q = l.published) :
    ∃ s1, step s op = some s1 ∧ s1.WF ∧
      ∀ q, s1.view T U = some q →
        (ledgerStep T U s l op).delivered ++ q = (ledgerStep T U s l op).published := by
  have hsub := subscribed_eq_view s hwf T U
  cases op with
  | subscribe T1 U1 =>
    obtain ⟨s1, e, hwf1, hv⟩ := subscribe_sim s hwf T1 U1
    refine ⟨s1, e, hwf1, ?_⟩
    intro q hq
    rw [hv] at hq
    simp only [ledgerStep]
    by_cases hc : T = T1 ∧ U = U1
    · obtain ⟨rfl, rfl⟩ := hc
      rw [if_pos ⟨rfl, rfl⟩] at hq
      cases hv0 : s.view T U with
      | none =>
        rw [hv0] at hq hsub
        cases hq
        simp [hsub]
      | some q0 =>
        rw [hv0] at hq hsub
        cases hq
        simp only [Option.isSome_some] at hsub
        simp only [hsub, Bool.true_eq_false, and_false, if_false, Option.getD_some]
        exact hinv q0 hv0
    · rw [if_neg hc] at hq
      have hc2 : ¬ (T1 = T ∧ U1 = U ∧ s.subscribed T U = false) :=
        fun e => hc ⟨e.1.symm, e.2.1.symm⟩
      rw [if_neg hc2]
      exact hinv q hq
  | unsubscribe T1 U1 =>
    obtain ⟨s1, e, hwf1, hv⟩ := unsubscribe_sim s hwf T1 U1
    refine ⟨s1, by simp only [step]; rw [e]; rfl, hwf1, ?_⟩
    intro q hq
    rw [hv] at hq
    simp only [ledgerStep]
    split at hq
    · cases hq
    · exact hinv q hq
  | publish T1 m =>
    obtain ⟨s1, e, hwf1, hv⟩ := publish_sim s hwf T1 m
    refine ⟨s1, e, hwf1, ?_⟩
    intro q hq
    rw [hv] at hq
    simp only [ledgerStep]
    by_cases hc : T = T1
    · subst hc
      rw [if_pos rfl] at hq
      rw [if_pos rfl]
      cases hv0 : s.view T U with
      | none => rw [hv0] at hq; cases hq
      | some q0 =>
        rw [hv0] at hq
        cases hq
        show l.delivered ++ (q0 ++ [m]) = l.published ++ [m]
        rw [← List.append_assoc, hinv q0 hv0]
    · rw [if_neg hc] at hq
      rw [if_neg (fun e => hc e.symm)]
      exact hinv q hq
  | pollNext T1 U1 =>
    obtain ⟨s1, e, hwf1, hv⟩ := pollNext_sim s hwf T1 U1
    refine ⟨s1, by simp only [step]; rw [e]; rfl, hwf1, ?_⟩
    intro q hq
    rw [hv] at hq
    simp only [ledgerStep]
    by_cases hc : T = T1 ∧ U = U1
    · obtain ⟨rfl, rfl⟩ := hc
      rw [if_pos ⟨rfl, rfl⟩] at hq
      rw [if_pos ⟨rfl, rfl⟩, e]
      cases hv0 : s.view T U with
      | none => rw [hv0] at hq; cases hq
      | some q0 =>
        rw [hv0] at hq
        cases hq
        cases q0 with
        | nil =>
          simp only [Option.isSome_some, Option.getD_some, if_true]
          exact hinv [] hv0
        | cons a rest =>
          simp only [Option.isSome_some, Option.getD_some, headMsg]
          rw [if_neg (by simp)]
          show (l.delivered ++ [a]) ++ List.drop 1 (a :: rest) = l.published
          rw [← hinv (a :: rest) hv0]
          simp
    · rw [if_neg hc] at hq
      rw [if_neg (fun e => hc ⟨e.1.symm, e.2.symm⟩)]
      exact hinv q hq

theorem ledger_run (T U : String) (ops : List Op) :
    ∀ (s : SubscriptionService) (l : Ledger), s.WF →
    (∀ q, s.view T U = some q → l.delivered ++ q = l.published) →
    ∃ s' l', runLedger T U s l ops = some (s', l') ∧ run s ops = some s' ∧
      ∀ q, s'.view T U = some q → l'.delivered ++ q = l'.published := by
  induction ops with
  | nil =>
    intro s l _ hinv
    exact ⟨s, l, rfl, rfl, hinv⟩
  | cons op rest ih =>
    intro s l hwf hinv
    obtain ⟨s1, e1, hwf1, hinv1⟩ := ledger_step T U s l op hwf hinv
    obtain ⟨s2, l2, e2, r2, hinv2⟩ := ih s1 (ledgerStep T U s l op) hwf1 hinv1
    exact ⟨s2, l2, by simp only [runLedger, e1]; exact e2,
      by simp only [run, e1]; exact r2, hinv2⟩

theorem putUser_comm (h : Heap) (a b : UserPtr) (ya yb : User) (hne : a ≠ b) :
    (h.putUser a ya).putUser b yb = (h.putUser b yb).putUser a ya := by
  simp only [Heap.putUser]
  congr 1
  exact List.set_comm _ _ _ hne

theorem publishStep_some (t : TopicPtr) (m : Bytes) (h h1 : Heap) (a : UserPtr)
    (hs : publishStep t m h a = some h1) : ∃ z, h1 = h.putUser a z := by
  unfold publishStep at hs
  cases hy : h.userObjs[a]? with
  | none => simp [hy] at hs
  | some y =>
    cases hmb : mapGet y.Mailboxes t with
    | none => simp [hy, hmb] at hs
    | some mb =>
      simp only [hy, hmb, Option.some.injEq] at hs
      exact ⟨_, hs.symm⟩

theorem publishStep_putUser (t : TopicPtr) (m : Bytes) (h : Heap) (a b : UserPtr) (yb : User)
    (hne : a ≠ b) :
    publishStep t m (h.putUser b yb) a
      = (publishStep t m h a).map (fun h1 => h1.putUser b yb) := by
  have hget : (h.putUser b yb).userObjs[a]? = h.userObjs[a]? := by
    simp only [Heap.putUser]
    exact List.getElem?_set_ne (fun e => hne e.symm)
  unfold publishStep
  rw [hget]
  cases hy : h.userObjs[a]? with
  | none => rfl
  | some y =>
    cases hmb : mapGet y.Mailboxes t with
    | none => simp only [hmb, Option.map_none']
    | some mb =>
      simp only [hmb, Option.map_some', Option.some.injEq]
      exact (putUser_comm h a b _ yb hne).symm

theorem publishStep_comm (t : TopicPtr) (m : Bytes) (h : Heap) (a b : UserPtr) :
    (publishStep t m h a).bind (fun h1 => publishStep t m h1 b)
      = (publishStep t m h b).bind (fun h1 => publishStep t m h1 a) := by
  by_cases hne : a = b
  · subst hne
    rfl
  · have hne2 : b ≠ a := fun e => hne e.symm
    cases ha : publishStep t m h a with
    | none =>
      cases hb : publishStep t m h b with
      | none => rfl
      | some hb1 =>
        obtain ⟨zb, rfl⟩ := publishStep_some t m h hb1 b hb
        simp only [Option.none_bind, Option.some_bind]
        rw [publishStep_putUser t m h a b zb hne, ha]
        rfl
    | some ha1 =>
      obtain ⟨za, rfl⟩ := publishStep_some t m h ha1 a ha
      simp only [Option.some_bind]
      rw [publishStep_putUser t m h b a za hne2]
      cases hb : publishStep t m h b with
      | none => rfl
      | some hb1 =>
        obtain ⟨zb, rfl⟩ := publishStep_some t m h hb1 b hb
        simp only [Option.map_some', Option.some_bind]
        rw [publishStep_putUser t m h a b zb hne, ha]
        simp only [Option.map_some']
        rw [putUser_comm h a b za zb hne]

theorem publishLoop_cons (t : TopicPtr) (m : Bytes) (h : Heap) (u : UserPtr)
    (rest : List UserPtr) :
    publishLoop t m h (u :: rest)
      = (publishStep t m h u).bind (fun h1 => publishLoop t m h1 rest) := by
  simp only [publishLoop]
  cases publishStep t m h u <;> rfl

theorem publishLoop_perm (t : TopicPtr) (m : Bytes) {o1 o2 : List UserPtr}
    (hp : o1.Perm o2) : ∀ h : Heap, publishLoop t m h o1 = publishLoop t m h o2 := by
  induction hp with
  | nil => intro h; rfl
  | cons x _ ih =>
    intro h
    rw [publishLoop_cons, publishLoop_cons]
    cases publishStep t m h x with
    | none => rfl
    | some h1 => exact ih h1
  | swap x y l =>
    intro h
    rw [publishLoop_cons, publishLoop_cons]
    have e1 : (publishStep t m h y).bind (fun h1 => publishLoop t m h1 (x :: l))
        = ((publishStep t m h y).bind (fun h1 => publishStep t m h1 x)).bind
            (fun h2 => publishLoop t m h2 l) := by
      cases publishStep t m h y with
      | none => rfl
      | some h1 => exact publishLoop_cons t m h1 x l
    have e2 : (publishStep t m h x).bind (fun h1 => publishLoop t m h1 (y :: l))
        = ((publishStep t m h x).bind (fun h1 => publishStep t m h1 y)).bind
            (fun h2 => publishLoop t m h2 l) := by
      cases publishStep t m h x with
      | none => rfl
      | some h1 => exact publishLoop_cons t m h1 y l
    rw [e1, e2, publishStep_comm t m h y x]
  | trans _ _ ih1 ih2 =>
    intro h
    exact (ih1 h).trans (ih2 h)

theorem reachable_svcT2 : Reachable svcT2 :=
  ⟨[Op.subscribe "t" "u", Op.subscribe "t" "v"], by decide⟩

theorem programReachable_reachable (s : SubscriptionService) (hr : ProgramReachable s) :
    Reachable s := by
  obtain ⟨ops, _, hrun⟩ := hr
  exact ⟨ops, hrun⟩

theorem programReachable_nonNil (s : SubscriptionService) (hr : ProgramReachable s)
    (T U : String) (q : List Bytes) (hq : s.view T U = some q) : ∀ x ∈ q, x ≠ none := by
  obtain ⟨ops, hall, hrun⟩ := hr
  have hops : ∀ T1 m, Op.publish T1 m ∈ ops → m ≠ none := by
    intro T1 m hmem
    have h1 := List.all_eq_true.mp hall (Op.publish T1 m) hmem
    intro hm
    rw [hm] at h1
    cases h1
  exact nonNil_run ops hops SubscriptionService.empty s wf_empty
    (fun T0 U0 q0 h0 => by
      rw [view_none_topic SubscriptionService.empty T0 U0 rfl] at h0; cases h0)
    hrun T U q hq

theorem programReachable_svcTUa : ProgramReachable svcTUa :=
  ⟨[Op.subscribe "t" "u", Op.publish "t" (some [97])], by decide, by decide⟩

/-! ## The claims -/

/-- C1. Bidirectional consistency is an invariant of the registry.  It holds in
the empty registry; `Topic.Subscribe`, `Topic.Unsubscribe`, `Topic.Publish`,
`User.NextMessage`, `getTopic` and `getUser` each preserve it, and so does
every request (Subscribe, Unsubscribe, Publish, PollNext); no request panics
in a reachable state; and so in every reachable state, for every allocated
topic `T` and user `U`, `U` is in `T`'s subscriber set if and only if `U`'s
mailbox map has an entry for `T`. -/
theorem bidirectional_consistency_invariant :
    SubscriptionService.empty.heap.Consistent ∧
    (∀ (h : Heap) (t : TopicPtr) (u : UserPtr) (h' : Heap),
      h.Consistent → Topic.Subscribe h t u = some h' → h'.Consistent) ∧
    (∀ (h : Heap) (t : TopicPtr) (u : UserPtr) (r : Bool × Heap),
      h.Consistent → Topic.Unsubscribe h t u = some r → r.2.Consistent) ∧
    (∀ (h : Heap) (t : TopicPtr) (m : Bytes) (h' : Heap),
      h.Consistent → Topic.Publish h t m = some h' → h'.Consistent) ∧
    (∀ (h : Heap) (u : UserPtr) (t : TopicPtr) (r : (Bytes × Bool) × Heap),
      h.Consistent → User.NextMessage h u t = some r → r.2.Consistent) ∧
    (∀ (svc : SubscriptionService) (n : String),
      svc.heap.Consistent → (svc.getTopic n).2.heap.Consistent) ∧
    (∀ (svc : SubscriptionService) (n : String),
      svc.heap.Consistent → (svc.getUser n).2.heap.Consistent) ∧
    (∀ (svc svc' : SubscriptionService) (op : Op),
      svc.heap.Consistent → step svc op = some svc' → svc'.heap.Consistent) ∧
    (∀ (svc : SubscriptionService) (op : Op),
      Reachable svc → ∃ svc', step svc op = some svc') ∧
    (∀ (svc : SubscriptionService), Reachable svc →
      ∀ (t : TopicPtr) (u : UserPtr) (topic : Topic) (user : User),
      svc.heap.topicObjs[t]? = some topic → svc.heap.userObjs[u]? = some user →
      (u ∈ topic.Subscribers ↔ (mapGet user.Mailboxes t).isSome = true)) := by
  refine ⟨wf_empty.1.1, ?_, ?_, ?_, ?_, ?_, ?_, consistent_step, ?_, ?_⟩
  · intro h t u h' hc hr
    exact consistent_subscribe h h' t u hc hr
  · intro h t u r hc hr
    exact consistent_unsubscribe h r t u hc hr
  · intro h t m h' hc hr
    exact consistent_publish h h' t m hc hr
  · intro h u t r hc hr
    exact consistent_nextMessage h r u t hc hr
  · intro svc n hc
    exact consistent_getTopic svc n hc
  · intro svc n hc
    exact consistent_getUser svc n hc
  · intro svc op hr
    exact step_total svc (wf_reachable svc hr) op
  · intro svc hr t u topic user ht hu
    have hc := (wf_reachable svc hr).1.1 t u
    rw [subs_of_obj ht, mbox_of_obj hu] at hc
    exact hc

/-- C2. Publish-then-poll preserves order.  In every reachable state in which
`U` is subscribed to `T` with an empty mailbox, publishing the messages `ms` to
`T` in order succeeds, and `ms.length` successive PollNext requests for
`(T, U)` then answer `subscribed = true` each time and return exactly the
messages of `ms`, in the same order. -/
theorem publish_then_poll_order (s : SubscriptionService) (hr : Reachable s)
    (T U : String) (hempty : s.view T U = some []) (ms : List Bytes) :
    ∃ s1 s2, run s (ms.map (Op.publish T)) = some s1 ∧
      pollN s1 T U ms.length = some (ms.map (fun m => (m, true)), s2) := by
  obtain ⟨s1, h1, hwf1, hv1⟩ := publish_list T U ms s [] (wf_reachable s hr) hempty
  obtain ⟨s2, h2, _, _⟩ := poll_list T U ms s1 hwf1 (by simpa using hv1)
  exact ⟨s1, s2, h1, h2⟩

theorem publish_then_poll_order_witness :
    Reachable svcTU ∧ svcTU.view "t" "u" = some [] ∧
    ∃ s1 s2, run svcTU ([some [97], some [98]].map (Op.publish "t")) = some s1 ∧
      pollN s1 "t" "u" 2 = some ([(some [97], true), (some [98], true)], s2) :=
  ⟨reachable_svcTU, by decide,
    publish_then_poll_order svcTU reachable_svcTU "t" "u" (by decide) [some [97], some [98]]⟩

/-- C3. Fan-out isolation.  Starting from the empty registry, or from any
reachable state in which neither user has messages buffered for `T`: after
Subscribe(T,U1), Subscribe(T,U2), Publish(T,m) with `U1 ≠ U2`, PollNext(T,U1)
and PollNext(T,U2) both return `(true, m)`, whichever is made first, and the
poll for one user leaves the other user's mailbox for `T` unchanged. -/
theorem fan_out_isolation (s : SubscriptionService) (hr : Reachable s)
    (T U1 U2 : String) (hne : U1 ≠ U2) (m : Bytes)
    (h1 : (s.view T U1).getD [] = []) (h2 : (s.view T U2).getD [] = []) :
    ∃ s1 s2 s3, s.Subscribe T U1 = some s1 ∧ s1.Subscribe T U2 = some s2 ∧
      s2.Publish T m = some s3 ∧
      (∃ s4 s5, s3.PollNext T U1 = some ((m, true), s4) ∧
        s4.view T U2 = s3.view T U2 ∧ s4.PollNext T U2 = some ((m, true), s5)) ∧
      (∃ s4 s5, s3.PollNext T U2 = some ((m, true), s4) ∧
        s4.view T U1 = s3.view T U1 ∧ s4.PollNext T U1 = some ((m, true), s5)) := by
  obtain ⟨s1, e1, hwf1, hv1⟩ := subscribe_sim s (wf_reachable s hr) T U1
  obtain ⟨s2, e2, hwf2, hv2⟩ := subscribe_sim s1 hwf1 T U2
  obtain ⟨s3, e3, hwf3, hv3⟩ := publish_sim s2 hwf2 T m
  have a1 : s1.view T U1 = some [] := by rw [hv1, if_pos ⟨rfl, rfl⟩, h1]
  have a2 : s1.view T U2 = s.view T U2 := by rw [hv1, if_neg (fun e => hne e.2.symm)]
  have b1 : s2.view T U1 = some [] := by rw [hv2, if_neg (fun e => hne e.2), a1]
  have b2 : s2.view T U2 = some [] := by rw [hv2, if_pos ⟨rfl, rfl⟩, a2, h2]
  have c1 : s3.view T U1 = some [m] := by rw [hv3, if_pos rfl, b1]; rfl
  have c2 : s3.view T U2 = some [m] := by rw [hv3, if_pos rfl, b2]; rfl
  exact ⟨s1, s2, s3, e1, e2, e3, poll_pair s3 hwf3 T U1 U2 hne m c1 c2,
    poll_pair s3 hwf3 T U2 U1 (fun e => hne e.symm) m c2 c1⟩

theorem fan_out_isolation_witness :
    Reachable SubscriptionService.empty ∧ "u1" ≠ "u2" ∧
    (SubscriptionService.empty.view "t" "u1").getD [] = [] ∧
    (SubscriptionService.empty.view "t" "u2").getD [] = [] ∧
    ∃ s1 s2 s3, SubscriptionService.empty.Subscribe "t" "u1" = some s1 ∧
      s1.Subscribe "t" "u2" = some s2 ∧ s2.Publish "t" (some [109]) = some s3 ∧
      (∃ s4 s5, s3.PollNext "t" "u1" = some ((some [109], true), s4) ∧
        s4.view "t" "u2" = s3.view "t" "u2" ∧
        s4.PollNext "t" "u2" = some ((some [109], true), s5)) ∧
      (∃ s4 s5, s3.PollNext "t" "u2" = some ((some [109], true), s4) ∧
        s4.view "t" "u1" = s3.view "t" "u1" ∧
        s4.PollNext "t" "u1" = some ((some [109], true), s5)) :=
  ⟨reachable_empty, by decide, by decide, by decide,
    fan_out_isolation SubscriptionService.empty reachable_empty "t" "u1" "u2" (by decide)
      (some [109]) (by decide) (by decide)⟩

/-- C4. Unsubscribe discards buffered messages.  From every reachable state,
the sequence Subscribe(T,U), Publish(T,x), Unsubscribe(T,U), Subscribe(T,U)
succeeds, the Unsubscribe reports `true`, the mailbox of `(T, U)` is empty
afterwards, and PollNext(T,U) then returns `subscribed = true` with the empty
marker (nil): the published `x` is gone. -/
theorem unsubscribe_discards_buffered (s : SubscriptionService) (hr : Reachable s)
    (T U : String) (x : Bytes) :
    ∃ s1 s2 s3 s4 s5, s.Subscribe T U = some s1 ∧ s1.Publish T x = some s2 ∧
      s2.Unsubscribe T U = some (true, s3) ∧ s3.Subscribe T U = some s4 ∧
      s4.view T U = some [] ∧ s4.PollNext T U = some ((none, true), s5) := by
  obtain ⟨s1, e1, hwf1, hv1⟩ := subscribe_sim s (wf_reachable s hr) T U
  obtain ⟨s2, e2, hwf2, hv2⟩ := publish_sim s1 hwf1 T x
  obtain ⟨s3, e3, hwf3, hv3⟩ := unsubscribe_sim s2 hwf2 T U
  obtain ⟨s4, e4, hwf4, hv4⟩ := subscribe_sim s3 hwf3 T U
  obtain ⟨s5, e5, _, _⟩ := pollNext_sim s4 hwf4 T U
  have a2 : (s2.view T U).isSome = true := by
    rw [hv2, if_pos rfl, hv1, if_pos ⟨rfl, rfl⟩]
    rfl
  have a3 : s3.view T U = none := by rw [hv3, if_pos ⟨rfl, rfl⟩]
  have a4 : s4.view T U = some [] := by rw [hv4, if_pos ⟨rfl, rfl⟩, a3]; rfl
  rw [a2] at e3
  rw [a4] at e5
  exact ⟨s1, s2, s3, s4, s5, e1, e2, e3, e4, a4, e5⟩

theorem unsubscribe_discards_buffered_witness :
    Reachable SubscriptionService.empty ∧
    ∃ s1 s2 s3 s4 s5, SubscriptionService.empty.Subscribe "t" "u" = some s1 ∧
      s1.Publish "t" (some [120]) = some s2 ∧
      s2.Unsubscribe "t" "u" = some (true, s3) ∧ s3.Subscribe "t" "u" = some s4 ∧
      s4.view "t" "u" = some [] ∧ s4.PollNext "t" "u" = some ((none, true), s5) :=
  ⟨reachable_empty,
    unsubscribe_discards_buffered SubscriptionService.empty reachable_empty "t" "u"
      (some [120])⟩

/-- C5. Subscribe is idempotent.  In every state, Subscribe(T,U) applied when
`U` is already a subscriber of `T` returns the state unchanged (mailboxes and
their buffered messages included), and Subscribe(T,U) applied twice gives the
same result as applied once; in a reachable state the request does return.
The same holds for the method `Topic.Subscribe` on every heap. -/
theorem subscribe_idempotent (s : SubscriptionService) (T U : String) :
    (s.subscribed T U = true → s.Subscribe T U = some s) ∧
    (s.Subscribe T U).bind (fun s1 => s1.Subscribe T U) = s.Subscribe T U ∧
    (Reachable s → ∃ s1, s.Subscribe T U = some s1 ∧ s1.Subscribe T U = some s1) ∧
    (∀ (h : Heap) (t : TopicPtr) (u : UserPtr),
      u ∈ h.subs t → Topic.Subscribe h t u = some h) ∧
    (∀ (h : Heap) (t : TopicPtr) (u : UserPtr),
      (Topic.Subscribe h t u).bind (fun h1 => Topic.Subscribe h1 t u)
        = Topic.Subscribe h t u) := by
  have htwice : ∀ s1, s.Subscribe T U = some s1 → s1.Subscribe T U = some s1 :=
    fun s1 e => subscribe_noop s1 T U (subscribe_subscribed s s1 T U e)
  refine ⟨subscribe_noop s T U, ?_, ?_, topicSubscribe_noop, topicSubscribe_twice⟩
  · cases hr : s.Subscribe T U with
    | none => rfl
    | some s1 => exact htwice s1 hr
  · intro hreach
    obtain ⟨s1, e1, _, _⟩ := subscribe_sim s (wf_reachable s hreach) T U
    exact ⟨s1, e1, htwice s1 e1⟩

theorem subscribe_idempotent_witness :
    svcTUa.subscribed "t" "u" = true ∧ svcTUa.Subscribe "t" "u" = some svcTUa :=
  ⟨by decide, (subscribe_idempotent svcTUa "t" "u").1 (by decide)⟩

/-- C6. `Topic.Unsubscribe(user)` on allocated objects returns `true` if and
only if `user` was in the topic's subscriber set before the call.  When it
returns `true`, afterwards `user` is not in the subscriber set and has no
mailbox for this topic, while every other member of the set and every other
mailbox of the user are as before.  When it returns `false` the heap is
unchanged.  In both cases the other topics and the other users are untouched. -/
theorem unsubscribe_contract (h : Heap) (t : TopicPtr) (u : UserPtr) (x : Topic) (y : User)
    (hx : h.topicObjs[t]? = some x) (hy : h.userObjs[u]? = some y) :
    ∃ h', Topic.Unsubscribe h t u = some (decide (u ∈ x.Subscribers), h') ∧
      (u ∈ x.Subscribers →
        u ∉ h'.subs t ∧ h'.mbox u t = none ∧
        (∀ u1, u1 ≠ u → (u1 ∈ h'.subs t ↔ u1 ∈ x.Subscribers)) ∧
        (∀ t1, t1 ≠ t → h'.mbox u t1 = mapGet y.Mailboxes t1)) ∧
      (u ∉ x.Subscribers → h' = h) ∧
      (∀ t1, t1 ≠ t → h'.subs t1 = h.subs t1) ∧
      (∀ u1 t1, u1 ≠ u → h'.mbox u1 t1 = h.mbox u1 t1) := by
  have hsubs : h.subs t = x.Subscribers := subs_of_obj hx
  obtain ⟨h', heff, hsame, _, _, hs, hm⟩ := unsubscribe_effect h t u x y hx hy
  rw [hsubs] at heff hsame
  refine ⟨h', heff, ?_, hsame, ?_, ?_⟩
  · intro hmem
    refine ⟨?_, ?_, ?_, ?_⟩
    · rw [hs t, if_pos rfl, mem_setDelete]
      exact fun e => e.2 rfl
    · rw [hm u t, hsubs, if_pos ⟨rfl, rfl, hmem⟩]
    · intro u1 hne
      rw [hs t, if_pos rfl, mem_setDelete, hsubs]
      exact ⟨fun e => e.1, fun e => ⟨e, hne⟩⟩
    · intro t1 hne
      rw [hm u t1, if_neg (fun e => hne e.2.1), mbox_of_obj hy]
  · intro t1 hne
    rw [hs t1, if_neg hne]
  · intro u1 t1 hne
    rw [hm u1 t1, if_neg (fun e => hne e.1)]

theorem unsubscribe_contract_witness :
    svcTUa.heap.topicObjs[0]? = some { Name := "t", Subscribers := [0] } ∧
    svcTUa.heap.userObjs[0]? = some { Name := "u", Mailboxes := [(0, { buf := [some [97]] })] } ∧
    ∃ h', Topic.Unsubscribe svcTUa.heap 0 0 = some (decide ((0 : UserPtr) ∈ [0]), h') ∧
      ((0 : UserPtr) ∈ [0] →
        0 ∉ h'.subs 0 ∧ h'.mbox 0 0 = none ∧
        (∀ u1, u1 ≠ 0 → (u1 ∈ h'.subs 0 ↔ u1 ∈ [0])) ∧
        (∀ t1, t1 ≠ 0 →
          h'.mbox 0 t1 = mapGet [((0 : TopicPtr), ({ buf := [some [97]] } : Mailbox))] t1)) ∧
      ((0 : UserPtr) ∉ [0] → h' = svcTUa.heap) ∧
      (∀ t1, t1 ≠ 0 → h'.subs t1 = svcTUa.heap.subs t1) ∧
      (∀ u1 t1, u1 ≠ 0 → h'.mbox u1 t1 = svcTUa.heap.mbox u1 t1) :=
  ⟨by decide, by decide,
    unsubscribe_contract svcTUa.heap 0 0 { Name := "t", Subscribers := [0] }
      { Name := "u", Mailboxes := [(0, { buf := [some [97]] })] } (by decide) (by decide)⟩

/-- C7 (as stated, refuted).  In the empty registry the pair ("t", "u") was
never subscribed; Unsubscribe("t", "u") reports `false`, yet the state after
the call differs from the state before: both directories have a new entry. -/
theorem unsubscribe_unknown_names_mutates :
    SubscriptionService.empty.subscribed "t" "u" = false ∧
    SubscriptionService.empty.Unsubscribe "t" "u" =
      some (false,
        { heap := { topicObjs := [{ Name := "t", Subscribers := [] }],
                    userObjs := [{ Name := "u", Mailboxes := [] }] },
          topics := [("t", 0)],
          users := [("u", 0)] }) ∧
    (SubscriptionService.empty.Unsubscribe "t" "u").map Prod.snd
      ≠ some SubscriptionService.empty := by
  decide

/-- C7 (amended).  In every reachable state, when `U` is not subscribed to `T`
(in particular when it never was), Unsubscribe(T,U) reports `false` and its
only effect is the get-or-create of the two names: the state after the call
is the state after `getTopic(T)` and `getUser(U)`.  That state equals the state
before when both names are registered already; in every case no subscriber
set, no mailbox and no subscription changes. -/
theorem unsubscribe_not_subscribed (s : SubscriptionService) (hr : Reachable s)
    (T U : String) (hns : s.subscribed T U = false) :
    s.Unsubscribe T U = some (false, ((s.getTopic T).2.getUser U).2) ∧
    (∀ t u, mapGet s.topics T = some t → mapGet s.users U = some u →
      ((s.getTopic T).2.getUser U).2 = s) ∧
    (∀ t1, ((s.getTopic T).2.getUser U).2.heap.subs t1 = s.heap.subs t1) ∧
    (∀ u1 t1, ((s.getTopic T).2.getUser U).2.heap.mbox u1 t1 = s.heap.mbox u1 t1) ∧
    (∀ T1 U1, ((s.getTopic T).2.getUser U).2.view T1 U1 = s.view T1 U1) := by
  have hwf := wf_reachable s hr
  obtain ⟨hwf2, hT2, hU2, hview, ⟨x, hx⟩, ⟨y, hy⟩⟩ := resolve s hwf T U
  obtain ⟨h', heff, hsame, _⟩ := unsubscribe_effect _ _ _ x y hx hy
  have hnot : ((s.getTopic T).2.getUser U).1 ∉
      ((s.getTopic T).2.getUser U).2.heap.subs (s.getTopic T).1 := by
    intro hmem
    have h1 := (view_isSome_iff _ hwf2 T U _ _ hT2 hU2).mp hmem
    rw [hview, ← subscribed_eq_view s hwf, hns] at h1
    cases h1
  have hh : h' = ((s.getTopic T).2.getUser U).2.heap := hsame hnot
  refine ⟨?_, ?_, ?_, ?_, hview⟩
  · simp only [SubscriptionService.Unsubscribe]
    rw [heff, hh]
    simp [hnot]
  · intro t u hT hU
    rw [getTopic_found s T t hT, getUser_found s U u hU]
  · intro t1
    rw [(getUser_frame _ U).2.1, (getTopic_frame s T).2.1]
  · intro u1 t1
    rw [(getUser_frame _ U).2.2.1, (getTopic_frame s T).2.2.1]

theorem unsubscribe_not_subscribed_witness :
    Reachable svcTUa ∧ svcTUa.subscribed "t" "v" = false ∧
    svcTUa.Unsubscribe "t" "v" = some (false, ((svcTUa.getTopic "t").2.getUser "v").2) ∧
    (∀ t u, mapGet svcTUa.topics "t" = some t → mapGet svcTUa.users "v" = some u →
      ((svcTUa.getTopic "t").2.getUser "v").2 = svcTUa) ∧
    (∀ t1, ((svcTUa.getTopic "t").2.getUser "v").2.heap.subs t1 = svcTUa.heap.subs t1) ∧
    (∀ u1 t1, ((svcTUa.getTopic "t").2.getUser "v").2.heap.mbox u1 t1
      = svcTUa.heap.mbox u1 t1) ∧
    (∀ T1 U1, ((svcTUa.getTopic "t").2.getUser "v").2.view T1 U1 = svcTUa.view T1 U1) :=
  ⟨reachable_svcTUa, by decide,
    unsubscribe_not_subscribed svcTUa reachable_svcTUa "t" "v" (by decide)⟩

/-- C8. `User.NextMessage(topic)` on an allocated user.  If the user has no
mailbox for `topic` it returns `subscribed = false` with no message and the
heap is unchanged.  If the user has a mailbox `mb` for `topic`, `Pop` on `mb`
returns some `(msg, mb')`, the call returns `subscribed = true` with `msg`, the
mailbox of the pair becomes `mb'`, which is `mb` itself or `mb` without its
head `msg` (at most one message is removed), and every other mailbox and every
subscriber set are as before. -/
theorem nextMessage_contract (h : Heap) (u : UserPtr) (t : TopicPtr) (y : User)
    (hy : h.userObjs[u]? = some y) :
    (mapGet y.Mailboxes t = none → User.NextMessage h u t = some ((none, false), h)) ∧
    (∀ mb, mapGet y.Mailboxes t = some mb →
      ∃ msg mb' h', mb.Pop = some (msg, mb') ∧
        User.NextMessage h u t = some ((msg, true), h') ∧
        h'.mbox u t = some mb' ∧
        (mb'.buf = mb.buf ∨ mb.buf = msg :: mb'.buf) ∧
        (∀ u1 t1, ¬ (u1 = u ∧ t1 = t) → h'.mbox u1 t1 = h.mbox u1 t1) ∧
        (∀ t1, h'.subs t1 = h.subs t1)) := by
  have hmb : h.mbox u t = mapGet y.Mailboxes t := mbox_of_obj hy t
  obtain ⟨h', heff, hsame, _, _, hs, hm⟩ := nextMessage_effect h u t y hy
  refine ⟨?_, ?_⟩
  · intro hnone
    rw [hmb, hnone] at heff hsame
    rw [heff, hsame rfl]
    rfl
  · intro mb hsome
    rw [hmb, hsome] at heff
    refine ⟨headMsg mb.buf, { buf := mb.buf.drop 1 }, h', pop_eq mb, heff, ?_, ?_, ?_, hs⟩
    · rw [hm u t, if_pos ⟨rfl, rfl⟩, hmb, hsome]
      rfl
    · cases hb : mb.buf with
      | nil => left; rfl
      | cons a rest => right; rfl
    · intro u1 t1 hne
      rw [hm u1 t1, if_neg hne]

theorem nextMessage_contract_witness :
    svcTUa.heap.userObjs[0]? = some { Name := "u", Mailboxes := [(0, { buf := [some [97]] })] } ∧
    (mapGet [((0 : TopicPtr), ({ buf := [some [97]] } : Mailbox))] 0 = none →
      User.NextMessage svcTUa.heap 0 0 = some ((none, false), svcTUa.heap)) ∧
    (∀ mb, mapGet [((0 : TopicPtr), ({ buf := [some [97]] } : Mailbox))] 0 = some mb →
      ∃ msg mb' h', mb.Pop = some (msg, mb') ∧
        User.NextMessage svcTUa.heap 0 0 = some ((msg, true), h') ∧
        h'.mbox 0 0 = some mb' ∧
        (mb'.buf = mb.buf ∨ mb.buf = msg :: mb'.buf) ∧
        (∀ u1 t1, ¬ (u1 = 0 ∧ t1 = 0) → h'.mbox u1 t1 = svcTUa.heap.mbox u1 t1) ∧
        (∀ t1, h'.subs t1 = svcTUa.heap.subs t1)) :=
  ⟨by decide,
    nextMessage_contract svcTUa.heap 0 0
      { Name := "u", Mailboxes := [(0, { buf := [some [97]] })] } (by decide)⟩

/-- C9. For every topic `T`, user `U` and list of requests that contains no
Subscribe(T,U), the requests run from the empty registry without a panic, and
PollNext(T,U) afterwards returns `subscribed = false` with no message. -/
theorem poll_without_subscribe (T U : String) (ops : List Op)
    (hno : Op.subscribe T U ∉ ops) :
    ∃ s s', run SubscriptionService.empty ops = some s ∧
      s.PollNext T U = some ((none, false), s') := by
  obtain ⟨s, hrun, hwf, hv⟩ :=
    run_no_subscribe T U ops SubscriptionService.empty wf_empty
      (view_none_topic _ T U rfl) hno
  obtain ⟨s', hpoll, _, _⟩ := pollNext_sim s hwf T U
  rw [hv] at hpoll
  exact ⟨s, s', hrun, hpoll⟩

theorem poll_without_subscribe_witness :
    Op.subscribe "t" "u" ∉
      [Op.subscribe "t" "v", Op.publish "t" (some [97]), Op.unsubscribe "t" "u",
        Op.pollNext "t" "v", Op.subscribe "s" "u"] ∧
    ∃ s s', run SubscriptionService.empty
        [Op.subscribe "t" "v", Op.publish "t" (some [97]), Op.unsubscribe "t" "u",
          Op.pollNext "t" "v", Op.subscribe "s" "u"] = some s ∧
      s.PollNext "t" "u" = some ((none, false), s') :=
  ⟨by decide,
    poll_without_subscribe "t" "u"
      [Op.subscribe "t" "v", Op.publish "t" (some [97]), Op.unsubscribe "t" "u",
        Op.pollNext "t" "v", Op.subscribe "s" "u"] (by decide)⟩

/-- C10 (as stated, refuted).  In the reachable state after Subscribe("t","u")
and Publish("t","a"), Subscribe("t","u") leaves the state as it is and the
PollNext("t","u") right after it returns the buffered message "a", not the
empty marker. -/
theorem poll_after_subscribe_returns_buffered :
    Reachable svcTUa ∧
    svcTUa.Subscribe "t" "u" = some svcTUa ∧
    (svcTUa.PollNext "t" "u").map Prod.fst = some (some [97], true) :=
  ⟨reachable_svcTUa, by decide, by decide⟩

/-- C10 (amended).  In every reachable state, PollNext(T,U) called immediately
after Subscribe(T,U) returns `subscribed = true`, together with the oldest
message that was buffered for `(T, U)` before the Subscribe; it returns the
empty marker when nothing was buffered, that is when `U` was not subscribed to
`T` or its mailbox for `T` was empty. -/
theorem poll_after_subscribe (s : SubscriptionService) (hr : Reachable s) (T U : String) :
    ∃ s1 s2, s.Subscribe T U = some s1 ∧
      s1.PollNext T U = some ((headMsg ((s.view T U).getD []), true), s2) ∧
      ((s.view T U).getD [] = [] → s1.PollNext T U = some ((none, true), s2)) := by
  obtain ⟨s1, e1, hwf1, hv1⟩ := subscribe_sim s (wf_reachable s hr) T U
  obtain ⟨s2, e2, _, _⟩ := pollNext_sim s1 hwf1 T U
  have a1 : s1.view T U = some ((s.view T U).getD []) := by rw [hv1, if_pos ⟨rfl, rfl⟩]
  rw [a1] at e2
  refine ⟨s1, s2, e1, e2, ?_⟩
  intro hq
  rw [e2, hq]
  rfl

theorem poll_after_subscribe_witness :
    Reachable svcTU ∧
    ∃ s1 s2, svcTU.Subscribe "t" "u" = some s1 ∧
      s1.PollNext "t" "u" = some ((headMsg ((svcTU.view "t" "u").getD []), true), s2) ∧
      ((svcTU.view "t" "u").getD [] = [] → s1.PollNext "t" "u" = some ((none, true), s2)) :=
  ⟨reachable_svcTU, poll_after_subscribe svcTU reachable_svcTU "t" "u"⟩

/-- C11. A Mailbox is a FIFO queue.  `Send(msg)` appends `msg` at the tail of
the buffer and changes nothing else; and for every mailbox `m` and list `ms`,
after sending the messages of `ms` in order, `len(m.buf) + len(ms)`
successive `Pop` calls all return, yielding the messages of `m.buf` followed
by those of `ms` in order, and leave the mailbox empty. -/
theorem mailbox_fifo (m : Mailbox) (msg : Bytes) (ms : List Bytes) :
    (m.Send msg).buf = m.buf ++ [msg] ∧
    popN (sendAll m ms) (m.buf.length + ms.length) = some (m.buf ++ ms, { buf := [] }) := by
  refine ⟨rfl, ?_⟩
  have h := popN_all (m.buf ++ ms) (sendAll m ms) (sendAll_buf ms m)
  rw [List.length_append] at h
  exact h

/-- C12. For every mailbox whose payloads are payloads that can be sent (the
non-nil slices that publishing delivers), `Pop` returns the empty marker (nil)
if and only if the mailbox holds no messages, and in that case leaves the
mailbox unchanged; otherwise it returns the head message and removes exactly
that message.  Every mailbox of a state the program can reach is such a
mailbox, and consequently a poll answers `subscribed = true` with the empty
marker exactly when the pair has a mailbox and nothing is buffered in it. -/
theorem pop_empty_marker (m : Mailbox) (hnn : ∀ x ∈ m.buf, x ≠ none) :
    (∃ msg m', m.Pop = some (msg, m') ∧
      (msg = none ↔ m.buf = []) ∧
      (m.buf = [] → m' = m) ∧
      (∀ a rest, m.buf = a :: rest → msg = a ∧ m' = { buf := rest })) ∧
    (∀ (s : SubscriptionService) (T U : String), ProgramReachable s →
      (∀ q, s.view T U = some q → ∀ x ∈ q, x ≠ none) ∧
      ∃ msg ok s', s.PollNext T U = some ((msg, ok), s') ∧
        ((ok = true ∧ msg = none) ↔ s.view T U = some [])) := by
  refine ⟨⟨headMsg m.buf, { buf := m.buf.drop 1 }, pop_eq m, ?_, ?_, ?_⟩, ?_⟩
  · cases hb : m.buf with
    | nil => simp [headMsg]
    | cons a rest =>
      have ha : a ≠ none := hnn a (by rw [hb]; exact List.mem_cons_self a rest)
      simp [headMsg, ha]
  · intro hb
    obtain ⟨buf⟩ := m
    simp only at hb
    subst hb
    rfl
  · intro a rest hb
    rw [hb]
    exact ⟨rfl, rfl⟩
  · intro s T U hr
    have hq := programReachable_nonNil s hr T U
    refine ⟨hq, ?_⟩
    obtain ⟨s', e, _, _⟩ :=
      pollNext_sim s (wf_reachable s (programReachable_reachable s hr)) T U
    refine ⟨_, _, s', e, ?_⟩
    cases hv : s.view T U with
    | none => simp
    | some q =>
      cases q with
      | nil => simp [headMsg]
      | cons a rest =>
        have ha : a ≠ none := hq (a :: rest) hv a (List.mem_cons_self a rest)
        simp [headMsg, ha]

theorem pop_empty_marker_witness :
    (∀ x ∈ ({ buf := [some [97], some []] } : Mailbox).buf, x ≠ none) ∧
    (∃ msg m', ({ buf := [some [97], some []] } : Mailbox).Pop = some (msg, m') ∧
      (msg = none ↔ ({ buf := [some [97], some []] } : Mailbox).buf = []) ∧
      (({ buf := [some [97], some []] } : Mailbox).buf = [] →
        m' = { buf := [some [97], some []] }) ∧
      (∀ a rest, ({ buf := [some [97], some []] } : Mailbox).buf = a :: rest →
        msg = a ∧ m' = { buf := rest })) ∧
    (∀ (s : SubscriptionService) (T U : String), ProgramReachable s →
      (∀ q, s.view T U = some q → ∀ x ∈ q, x ≠ none) ∧
      ∃ msg ok s', s.PollNext T U = some ((msg, ok), s') ∧
        ((ok = true ∧ msg = none) ↔ s.view T U = some [])) :=
  ⟨by decide, pop_empty_marker { buf := [some [97], some []] } (by decide)⟩

/-- C13. In every heap satisfying bidirectional consistency, `Topic.Publish`
on an allocated topic (whose subscriber set, being a set, lists each member
once) returns, appends `message` exactly once at the tail of the mailbox that
each subscriber holds for the topic, and leaves unchanged every mailbox of a
non-subscriber, every mailbox kept for another topic, and every subscriber
set. -/
theorem publish_contract (h : Heap) (t : TopicPtr) (m : Bytes) (x : Topic)
    (hx : h.topicObjs[t]? = some x) (hc : h.Consistent) (hnd : x.Subscribers.Nodup) :
    ∃ h', Topic.Publish h t m = some h' ∧
      (∀ u ∈ x.Subscribers, ∃ mb, h.mbox u t = some mb ∧
        h'.mbox u t = some { buf := mb.buf ++ [m] }) ∧
      (∀ u, u ∉ x.Subscribers → ∀ t1, h'.mbox u t1 = h.mbox u t1) ∧
      (∀ u t1, t1 ≠ t → h'.mbox u t1 = h.mbox u t1) ∧
      (∀ t1, h'.subs t1 = h.subs t1) := by
  have hsubs : h.subs t = x.Subscribers := subs_of_obj hx
  have hall : ∀ u ∈ x.Subscribers, (h.mbox u t).isSome = true := by
    intro u hu
    exact (hc t u).mp (hsubs ▸ hu)
  obtain ⟨h', hloop, _, _, hs, hm⟩ := publishLoop_effect t m x.Subscribers h hall
  refine ⟨h', by simp [Topic.Publish, hx, hloop], ?_, ?_, ?_, hs⟩
  · intro u hu
    obtain ⟨mb, hmb⟩ := Option.isSome_iff_exists.mp (hall u hu)
    refine ⟨mb, hmb, ?_⟩
    rw [hm u t, if_pos rfl, hmb]
    simp [List.count_eq_one_of_mem hnd hu]
  · intro u hu t1
    rw [hm u t1]
    by_cases ht : t1 = t
    · subst ht
      rw [if_pos rfl]
      have hnone : h.mbox u t1 = none := by
        cases hmb : h.mbox u t1 with
        | none => rfl
        | some mb =>
          exact absurd (hsubs ▸ (hc t1 u).mpr (by rw [hmb]; rfl)) hu
      rw [hnone]
      rfl
    · rw [if_neg ht]
  · intro u t1 hne
    rw [hm u t1, if_neg hne]

theorem publish_contract_witness :
    svcTUa.heap.topicObjs[0]? = some { Name := "t", Subscribers := [0] } ∧
    svcTUa.heap.Consistent ∧ ([0] : List UserPtr).Nodup ∧
    ∃ h', Topic.Publish svcTUa.heap 0 (some [98]) = some h' ∧
      (∀ u ∈ ([0] : List UserPtr), ∃ mb, svcTUa.heap.mbox u 0 = some mb ∧
        h'.mbox u 0 = some { buf := mb.buf ++ [some [98]] }) ∧
      (∀ u, u ∉ ([0] : List UserPtr) → ∀ t1, h'.mbox u t1 = svcTUa.heap.mbox u t1) ∧
      (∀ u t1, t1 ≠ 0 → h'.mbox u t1 = svcTUa.heap.mbox u t1) ∧
      (∀ t1, h'.subs t1 = svcTUa.heap.subs t1) :=
  ⟨by decide, (wf_reachable svcTUa reachable_svcTUa).1.1, by decide,
    publish_contract svcTUa.heap 0 (some [98]) { Name := "t", Subscribers := [0] }
      (by decide) (wf_reachable svcTUa reachable_svcTUa).1.1 (by decide)⟩

/-- C14. A message published to a topic with zero subscribers is dropped.  In
every reachable state, when the subscriber set of `T` is empty (or `T` is not
registered yet), Publish(T,m) returns and its only effect is the get-or-create
of `T`: every mailbox and every buffer is as before; and a user `U` who
subscribes to `T` afterwards gets `subscribed = true` with the empty marker
from PollNext(T,U), not `m`. -/
theorem publish_no_subscribers (s : SubscriptionService) (hr : Reachable s)
    (T : String) (m : Bytes)
    (hempty : ∀ t, mapGet s.topics T = some t → s.heap.subs t = []) :
    s.Publish T m = some (s.getTopic T).2 ∧
    (∀ u t, (s.getTopic T).2.heap.mbox u t = s.heap.mbox u t) ∧
    (∀ T1 U1, (s.getTopic T).2.view T1 U1 = s.view T1 U1) ∧
    (∀ U, ∃ s2 s3, (s.getTopic T).2.Subscribe T U = some s2 ∧
      s2.view T U = some [] ∧ s2.PollNext T U = some ((none, true), s3)) := by
  have hwf := wf_reachable s hr
  obtain ⟨hwf1, hT1, hview, ⟨x, hx⟩⟩ := resolveTopic s hwf T
  have hsubs0 : s.heap.subs (s.getTopic T).1 = [] := by
    cases hp : mapGet s.topics T with
    | some t0 =>
      rw [getTopic_found s T t0 hp]
      exact hempty t0 hp
    | none =>
      rw [getTopic_fresh s T hp]
      exact subs_unalloc_topic s.heap _ (Nat.le_refl _)
  have hsubs1 : (s.getTopic T).2.heap.subs (s.getTopic T).1 = [] := by
    rw [(getTopic_frame s T).2.1]
    exact hsubs0
  have hxs : x.Subscribers = [] := by rw [← subs_of_obj hx]; exact hsubs1
  refine ⟨?_, (getTopic_frame s T).2.2.1, hview, ?_⟩
  · simp only [SubscriptionService.Publish, Topic.Publish, hx, hxs, publishLoop]
  · intro U
    obtain ⟨s2, e2, hwf2, hv2⟩ := subscribe_sim (s.getTopic T).2 hwf1 T U
    obtain ⟨s3, e3, _, _⟩ := pollNext_sim s2 hwf2 T U
    have hnot : (s.getTopic T).2.subscribed T U = false := by
      unfold SubscriptionService.subscribed
      rw [hT1]
      cases mapGet (s.getTopic T).2.users U with
      | none => rfl
      | some u => simp [hsubs1]
    have hv1 : (s.getTopic T).2.view T U = none := by
      have h1 := subscribed_eq_view (s.getTopic T).2 hwf1 T U
      rw [hnot] at h1
      cases hv : (s.getTopic T).2.view T U with
      | none => rfl
      | some q => rw [hv] at h1; cases h1
    have a2 : s2.view T U = some [] := by rw [hv2, if_pos ⟨rfl, rfl⟩, hv1]; rfl
    rw [a2] at e3
    exact ⟨s2, s3, e2, a2, e3⟩

theorem publish_no_subscribers_witness :
    Reachable SubscriptionService.empty ∧
    (∀ t, mapGet SubscriptionService.empty.topics "t" = some t →
      SubscriptionService.empty.heap.subs t = []) ∧
    SubscriptionService.empty.Publish "t" (some [109])
      = some (SubscriptionService.empty.getTopic "t").2 ∧
    (∀ u t, (SubscriptionService.empty.getTopic "t").2.heap.mbox u t
      = SubscriptionService.empty.heap.mbox u t) ∧
    (∀ T1 U1, (SubscriptionService.empty.getTopic "t").2.view T1 U1
      = SubscriptionService.empty.view T1 U1) ∧
    (∀ U, ∃ s2 s3, (SubscriptionService.empty.getTopic "t").2.Subscribe "t" U = some s2 ∧
      s2.view "t" U = some [] ∧ s2.PollNext "t" U = some ((none, true), s3)) :=
  ⟨reachable_empty, by intro t ht; simp [SubscriptionService.empty, mapGet] at ht,
    publish_no_subscribers SubscriptionService.empty reachable_empty "t" (some [109])
      (by intro t ht; simp [SubscriptionService.empty, mapGet] at ht)⟩

/-- C15. Get-or-create is idempotent and never fails (`getTopic` is a total
function).  After `getTopic(n)` the directory maps `n` to the returned topic;
if `n` was registered the existing topic is returned and the registry is
unchanged; otherwise a new topic named `n` with an empty subscriber set is
allocated and registered under `n`, and no other directory entry, no other
topic and no user changes; a second `getTopic(n)` returns the same topic and
changes nothing; and in a reachable state the returned topic has Name `n`.
The same holds for `getUser`, with an empty mailbox map. -/
theorem get_or_create (s : SubscriptionService) (n : String) :
    (mapGet (s.getTopic n).2.topics n = some (s.getTopic n).1 ∧
      (∀ p, mapGet s.topics n = some p → s.getTopic n = (p, s)) ∧
      (mapGet s.topics n = none →
        (s.getTopic n).2.heap.topicObjs[(s.getTopic n).1]?
          = some { Name := n, Subscribers := [] }) ∧
      (∀ n1, n1 ≠ n → mapGet (s.getTopic n).2.topics n1 = mapGet s.topics n1) ∧
      (∀ t1, t1 ≠ (s.getTopic n).1 →
        (s.getTopic n).2.heap.topicObjs[t1]? = s.heap.topicObjs[t1]?) ∧
      (s.getTopic n).2.heap.userObjs = s.heap.userObjs ∧
      (s.getTopic n).2.users = s.users ∧
      (s.getTopic n).2.getTopic n = s.getTopic n ∧
      (Reachable s → (s.getTopic n).2.heap.topicName (s.getTopic n).1 = some n)) ∧
    (mapGet (s.getUser n).2.users n = some (s.getUser n).1 ∧
      (∀ p, mapGet s.users n = some p → s.getUser n = (p, s)) ∧
      (mapGet s.users n = none →
        (s.getUser n).2.heap.userObjs[(s.getUser n).1]?
          = some { Name := n, Mailboxes := [] }) ∧
      (∀ n1, n1 ≠ n → mapGet (s.getUser n).2.users n1 = mapGet s.users n1) ∧
      (∀ u1, u1 ≠ (s.getUser n).1 →
        (s.getUser n).2.heap.userObjs[u1]? = s.heap.userObjs[u1]?) ∧
      (s.getUser n).2.heap.topicObjs = s.heap.topicObjs ∧
      (s.getUser n).2.topics = s.topics ∧
      (s.getUser n).2.getUser n = s.getUser n ∧
      (Reachable s → (s.getUser n).2.heap.userName (s.getUser n).1 = some n)) := by
  refine ⟨⟨getTopic_get s n, getTopic_found s n, ?_, fun n1 h => getTopic_get_ne s n n1 h,
      getTopic_other s n, ?_, (getTopic_frame s n).1, ?_, ?_⟩,
    ⟨getUser_get s n, getUser_found s n, ?_, fun n1 h => getUser_get_ne s n n1 h,
      getUser_other s n, ?_, (getUser_frame s n).1, ?_, ?_⟩⟩
  · intro hp
    rw [getTopic_fresh s n hp]
    exact List.getElem?_concat_length _ _
  · cases hp : mapGet s.topics n with
    | some p => rw [getTopic_found s n p hp]
    | none => rw [getTopic_fresh s n hp]
  · have h1 := getTopic_found (s.getTopic n).2 n (s.getTopic n).1 (getTopic_get s n)
    rw [h1]
  · intro hr
    exact (getTopic_wf s (wf_reachable s hr) n).2.1 n _ (getTopic_get s n)
  · intro hp
    rw [getUser_fresh s n hp]
    exact List.getElem?_concat_length _ _
  · cases hp : mapGet s.users n with
    | some p => rw [getUser_found s n p hp]
    | none => rw [getUser_fresh s n hp]
  · have h1 := getUser_found (s.getUser n).2 n (s.getUser n).1 (getUser_get s n)
    rw [h1]
  · intro hr
    exact (getUser_wf s (wf_reachable s hr) n).2.2 n _ (getUser_get s n)

theorem get_or_create_witness :
    Reachable svcTUa ∧
    (svcTUa.getTopic "t").2.heap.topicName (svcTUa.getTopic "t").1 = some "t" ∧
    (svcTUa.getUser "v").2.heap.userName (svcTUa.getUser "v").1 = some "v" :=
  ⟨reachable_svcTUa, (get_or_create svcTUa "t").1.2.2.2.2.2.2.2.2 reachable_svcTUa,
    (get_or_create svcTUa "v").2.2.2.2.2.2.2.2.2 reachable_svcTUa⟩

/-- C16. No core operation panics.  In every reachable state: each request
(Subscribe, Unsubscribe, Publish, PollNext) and each handler returns; for
every allocated topic, every member of its subscriber set is an allocated user
holding a mailbox for the topic, so the lookup `user.Mailboxes[topic]` made by
`Topic.Publish` is never missing and `Topic.Publish` returns; and on every
mailbox `Pop` returns, its index `m.buf[0]` being made only on a non-empty
buffer. -/
theorem no_panic (s : SubscriptionService) (hr : Reachable s) :
    (∀ op, ∃ s', step s op = some s') ∧
    (∀ (t : TopicPtr) (x : Topic), s.heap.topicObjs[t]? = some x → ∀ u ∈ x.Subscribers,
      ∃ (y : User) (mb : Mailbox),
        s.heap.userObjs[u]? = some y ∧ mapGet y.Mailboxes t = some mb) ∧
    (∀ (t : TopicPtr) (x : Topic) (m : Bytes), s.heap.topicObjs[t]? = some x →
      ∃ h', Topic.Publish s.heap t m = some h') ∧
    (∀ mb : Mailbox, ∃ r, mb.Pop = some r) ∧
    (∀ mb : Mailbox, mb.buf.length ≠ 0 → ∃ msg, mb.buf[0]? = some msg) ∧
    (∀ T U, ∃ r, s.SubscribeUserHandler T U = some r) ∧
    (∀ T U, ∃ r, s.UnsubscribeUserHandler T U = some r) ∧
    (∀ T m, ∃ r, s.PublishHandler T m = some r) ∧
    (∀ T U, ∃ r, s.NextMessageHandler T U = some r) := by
  have hwf := wf_reachable s hr
  refine ⟨step_total s hwf, ?_, ?_, fun mb => ⟨_, pop_eq mb⟩, ?_, ?_, ?_, ?_, ?_⟩
  · intro t x hx u hu
    have hsome := (hwf.1.1 t u).mp (by rw [subs_of_obj hx]; exact hu)
    obtain ⟨y, hy⟩ := userObjs_of_mbox hsome
    rw [mbox_of_obj hy] at hsome
    obtain ⟨mb, hmb⟩ := Option.isSome_iff_exists.mp hsome
    exact ⟨y, mb, hy, hmb⟩
  · intro t x m hx
    obtain ⟨h', e, _⟩ := publish_effect s.heap t m x hx hwf.1
    exact ⟨h', e⟩
  · intro mb hlen
    cases hb : mb.buf with
    | nil => rw [hb] at hlen; exact absurd rfl hlen
    | cons a rest => exact ⟨a, by simp⟩
  · intro T U
    obtain ⟨s1, e, _, _⟩ := subscribe_sim s hwf T U
    simp only [SubscriptionService.SubscribeUserHandler, e]
    exact ⟨_, rfl⟩
  · intro T U
    obtain ⟨s1, e, _, _⟩ := unsubscribe_sim s hwf T U
    simp only [SubscriptionService.UnsubscribeUserHandler, e]
    split <;> exact ⟨_, rfl⟩
  · intro T m
    obtain ⟨s1, e, _, _⟩ := publish_sim s hwf T m
    simp only [SubscriptionService.PublishHandler, e]
    exact ⟨_, rfl⟩
  · intro T U
    obtain ⟨s1, e, _, _⟩ := pollNext_sim s hwf T U
    simp only [SubscriptionService.NextMessageHandler, e]
    split
    · exact ⟨_, rfl⟩
    · split <;> exact ⟨_, rfl⟩

theorem no_panic_witness :
    Reachable svcTUa ∧
    (∀ op, ∃ s', step svcTUa op = some s') ∧
    (∀ (t : TopicPtr) (x : Topic), svcTUa.heap.topicObjs[t]? = some x → ∀ u ∈ x.Subscribers,
      ∃ (y : User) (mb : Mailbox),
        svcTUa.heap.userObjs[u]? = some y ∧ mapGet y.Mailboxes t = some mb) ∧
    (∀ (t : TopicPtr) (x : Topic) (m : Bytes), svcTUa.heap.topicObjs[t]? = some x →
      ∃ h', Topic.Publish svcTUa.heap t m = some h') ∧
    (∀ mb : Mailbox, ∃ r, mb.Pop = some r) ∧
    (∀ mb : Mailbox, mb.buf.length ≠ 0 → ∃ msg, mb.buf[0]? = some msg) ∧
    (∀ T U, ∃ r, svcTUa.SubscribeUserHandler T U = some r) ∧
    (∀ T U, ∃ r, svcTUa.UnsubscribeUserHandler T U = some r) ∧
    (∀ T m, ∃ r, svcTUa.PublishHandler T m = some r) ∧
    (∀ T U, ∃ r, svcTUa.NextMessageHandler T U = some r) :=
  ⟨reachable_svcTUa, no_panic svcTUa reachable_svcTUa⟩

/-- C18. In every state the program can reach, for every topic name and user
name, the poll handler returns and answers status 404 if and only if the user
is not subscribed to the topic, status 204 if and only if the user is
subscribed and the mailbox is empty, and otherwise (subscribed, a message
buffered) it sets no status, writes the popped head message as the response
body and removes it from the mailbox; the unsubscribe handler returns and
answers 404 if and only if the user was not subscribed. -/
theorem handler_encoding (s : SubscriptionService) (hr : ProgramReachable s)
    (T U : String) :
    (∃ resp s', s.NextMessageHandler T U = some (resp, s') ∧
      (resp.status = some 404 ↔ s.subscribed T U = false) ∧
      (resp.status = some 204 ↔ (s.subscribed T U = true ∧ s.view T U = some [])) ∧
      (∀ a q, s.view T U = some (a :: q) →
        resp = { status := none, written := some a } ∧ s'.view T U = some q)) ∧
    (∃ resp s', s.UnsubscribeUserHandler T U = some (resp, s') ∧
      (resp.status = some 404 ↔ s.subscribed T U = false)) := by
  have hwf := wf_reachable s (programReachable_reachable s hr)
  have hsub := subscribed_eq_view s hwf T U
  have hnn := programReachable_nonNil s hr T U
  refine ⟨?_, ?_⟩
  · obtain ⟨s1, e, _, hv1⟩ := pollNext_sim s hwf T U
    have hafter := hv1 T U
    rw [if_pos ⟨rfl, rfl⟩] at hafter
    simp only [SubscriptionService.NextMessageHandler, e]
    cases hv : s.view T U with
    | none =>
      rw [hv] at hsub
      refine ⟨_, s1, rfl, ?_, ?_, ?_⟩
      · simp [hsub]
      · simp [hsub]
      · intro a q h1; cases h1
    | some q =>
      rw [hv] at hsub hafter
      cases q with
      | nil =>
        refine ⟨_, s1, rfl, ?_, ?_, ?_⟩
        · simp [hsub, headMsg]
        · simp [hsub, headMsg]
        · intro a q h1; cases h1
      | cons a rest =>
        have ha : a ≠ none := hnn (a :: rest) hv a (List.mem_cons_self a rest)
        cases a with
        | none => exact absurd rfl ha
        | some bs =>
          refine ⟨_, s1, rfl, ?_, ?_, ?_⟩
          · simp [hsub, headMsg]
          · simp [headMsg]
          · intro a q h1
            cases h1
            exact ⟨by simp [headMsg], hafter⟩
  · obtain ⟨s1, e, _, _⟩ := unsubscribe_sim s hwf T U
    simp only [SubscriptionService.UnsubscribeUserHandler, e, ← hsub]
    cases hb : s.subscribed T U with
    | false => exact ⟨_, s1, rfl, by simp⟩
    | true => exact ⟨_, s1, rfl, by simp⟩

theorem handler_encoding_witness :
    ProgramReachable svcTUa ∧
    (∃ resp s', svcTUa.NextMessageHandler "t" "u" = some (resp, s') ∧
      (resp.status = some 404 ↔ svcTUa.subscribed "t" "u" = false) ∧
      (resp.status = some 204 ↔
        (svcTUa.subscribed "t" "u" = true ∧ svcTUa.view "t" "u" = some [])) ∧
      (∀ a q, svcTUa.view "t" "u" = some (a :: q) →
        resp = { status := none, written := some a } ∧ s'.view "t" "u" = some q)) ∧
    (∃ resp s', svcTUa.UnsubscribeUserHandler "t" "u" = some (resp, s') ∧
      (resp.status = some 404 ↔ svcTUa.subscribed "t" "u" = false)) :=
  ⟨programReachable_svcTUa, handler_encoding svcTUa programReachable_svcTUa "t" "u"⟩

/-- C19. No duplicate, missing or reordered delivery under arbitrary
sequential interleaving.  Every list of requests runs from the empty registry
without a panic, and for every pair `(T, U)` that is subscribed in the final
state, with `P` the messages published to `T` since the most recent
Subscribe(T,U) that took effect and `D` the messages returned by PollNext(T,U)
since then, `D` followed by the current contents of `U`'s mailbox for `T`
equals `P`. -/
theorem delivery_ledger (T U : String) (ops : List Op) :
    ∃ s l, runLedger T U SubscriptionService.empty { published := [], delivered := [] } ops
        = some (s, l) ∧
      run SubscriptionService.empty ops = some s ∧
      ∀ q, s.view T U = some q → l.delivered ++ q = l.published := by
  refine ledger_run T U ops SubscriptionService.empty _ wf_empty ?_
  intro q hq
  rw [view_none_topic SubscriptionService.empty T U rfl] at hq
  cases hq

/-- C20. Publish is deterministic despite iterating an unordered subscriber
set.  In every heap satisfying bidirectional consistency, for every allocated
topic and every message, the loop of `Topic.Publish` run over the subscribers
in any order `order` (any permutation of the subscriber set) returns, and
returns the very heap that `Topic.Publish` returns; so any two visiting orders
give the same state. -/
theorem publish_order_independent (h : Heap) (t : TopicPtr) (m : Bytes) (x : Topic)
    (hx : h.topicObjs[t]? = some x) (hc : h.Consistent)
    (order1 order2 : List UserPtr)
    (hp1 : order1.Perm x.Subscribers) (hp2 : order2.Perm x.Subscribers) :
    ∃ h', Topic.Publish h t m = some h' ∧
      publishLoop t m h order1 = some h' ∧ publishLoop t m h order2 = some h' := by
  have hall : ∀ u ∈ x.Subscribers, (h.mbox u t).isSome = true := by
    intro u hu
    exact (hc t u).mp ((subs_of_obj hx).symm ▸ hu)
  obtain ⟨h', hloop, _⟩ := publishLoop_effect t m x.Subscribers h hall
  refine ⟨h', by simp [Topic.Publish, hx, hloop], ?_, ?_⟩
  · rw [publishLoop_perm t m hp1 h, hloop]
  · rw [publishLoop_perm t m hp2 h, hloop]

theorem publish_order_independent_witness :
    svcT2.heap.topicObjs[0]? = some { Name := "t", Subscribers := [0, 1] } ∧
    svcT2.heap.Consistent ∧
    ([0, 1] : List UserPtr).Perm [0, 1] ∧ ([1, 0] : List UserPtr).Perm [0, 1] ∧
    ∃ h', Topic.Publish svcT2.heap 0 (some [109]) = some h' ∧
      publishLoop 0 (some [109]) svcT2.heap [0, 1] = some h' ∧
      publishLoop 0 (some [109]) svcT2.heap [1, 0] = some h' :=
  ⟨by decide, (wf_reachable svcT2 reachable_svcT2).1.1, List.Perm.refl _,
    List.Perm.swap 0 1 [],
    publish_order_independent svcT2.heap 0 (some [109]) { Name := "t", Subscribers := [0, 1] }
      (by decide) (wf_reachable svcT2 reachable_svcT2).1.1 [0, 1] [1, 0]
      (List.Perm.refl _) (List.Perm.swap 0 1 [])⟩

end PubSub
